import Mathlib

set_option synthInstance.maxSize 10000

/-!
Shallow embedding of the in-memory checkpoint saver
(`libs/checkpoint/langgraph/checkpoint/memory/__init__.py`): the
`InMemorySaver` facade over three tables (checkpoint storage, pending
writes, blobs), its version generator, and the `PersistentDict` durable
map helper.

Modelling conventions:
* Python `dict`s become association lists with Python update semantics:
  assignment replaces the value in place when the key is present and
  appends otherwise; lookup returns the first entry with the key.
* The external serde is modelled as a tagged identity codec
  (`dumpsVal v = ("v", v)`), which satisfies the round-trip contract the
  store assumes and whose tag is never the reserved `"empty"` sentinel.
* Python string comparison (used for `max`, `sorted`, `>=` on checkpoint
  ids) is modelled by `lexLt`, code-point lexicographic order on the
  character list, which is exactly CPython's `str` comparison.
* The random fractional component produced by `random.random()` inside
  `get_next_version` is passed in as an oracle string parameter standing
  for the formatted `f"{next_h:016}"` text.
* Exceptions (`KeyError` on a missing config key, `ValueError` from
  `int(...)`) are modelled by `Option`/`Except` results.
-/

/-- Channel values are opaque payloads for the store; modelled as strings. -/
abbrev Value := String

/-- A serialized object as produced by `serde.dumps_typed`: a (type tag, payload) pair. -/
abbrev Serialized := String × Value

/-- Model of `serde.dumps_typed` on channel values: tags the payload with `"v"`,
which is never the reserved `"empty"` sentinel tag. -/
def dumpsVal (v : Value) : Serialized := ("v", v)

/-- Model of `serde.loads_typed` on channel values: inverse of `dumpsVal`. -/
def loadsVal (p : Serialized) : Value := p.2

/-- Lookup in a Python-dict model: the value of the first entry with the key. -/
def aget? {K V : Type} [DecidableEq K] (d : List (K × V)) (k : K) : Option V :=
  (d.find? (fun p => decide (p.1 = k))).map (fun p => p.2)

/-- Python dict assignment `d[k] = v`: replace the value in place when the key
is present, otherwise append the new pair at the end. -/
def ainsert {K V : Type} [DecidableEq K] (d : List (K × V)) (k : K) (v : V) : List (K × V) :=
  if d.any (fun p => decide (p.1 = k)) then
    d.map (fun p => if p.1 = k then (k, v) else p)
  else d ++ [(k, v)]

/-- Code-point lexicographic strict order on character lists: CPython's
comparison of `str` values. -/
def lexLt : List Char → List Char → Bool
  | [], [] => false
  | [], _ :: _ => true
  | _ :: _, [] => false
  | a :: as, b :: bs =>
    if a.toNat < b.toNat then true
    else if b.toNat < a.toNat then false
    else lexLt as bs

/-- Python `a < b` on strings. -/
def strLt (a b : String) : Bool := lexLt a.data b.data

/-- Python `max(d.keys())` over the items of a nonempty dict model (the empty
case is unreachable behind the nonemptiness check in `get_tuple`). -/
def maxKey {E : Type} : List (String × E) → String
  | [] => ""
  | x :: xs => xs.foldl (fun m p => if strLt m p.1 then p.1 else m) x.1

/-- One step of insertion sort into descending key order. -/
def insertByDesc {E : Type} (x : String × E) : List (String × E) → List (String × E)
  | [] => [x]
  | y :: ys => if strLt y.1 x.1 then x :: y :: ys else y :: insertByDesc x ys

/-- Model of `sorted(d.items(), key=fst, reverse=True)`. On distinct keys (a
dict invariant) any correct sort returns the same sequence, so insertion sort
is an exact model of Python's stable sort here. -/
def sortDesc {E : Type} : List (String × E) → List (String × E)
  | [] => []
  | x :: xs => insertByDesc x (sortDesc xs)

/-- Checkpoint metadata: a Python dict of opaque values. -/
abbrev Metadata := List (String × Value)

/-- A `RunnableConfig`'s addressing content: the `configurable` keys the saver
reads, plus the ambient metadata the `get_checkpoint_metadata` helper merges. -/
structure Config where
  thread_id : String
  checkpoint_ns : Option String
  checkpoint_id : Option String
  meta_ambient : Metadata := []
deriving DecidableEq, Repr

/-- Modelled from the spec: the `get_checkpoint_id` helper of
`langgraph.checkpoint.base` (not part of the sources under review) reads the
address's `checkpoint_id` and encodes absence as the empty string. -/
def getCheckpointId (config : Config) : String := config.checkpoint_id.getD ""

/-- Modelled from the spec: the `get_checkpoint_metadata` helper of
`langgraph.checkpoint.base` (not part of the sources under review) merges the
ambient run/step identifiers supplied by the caller's addressing context into
the checkpoint metadata. -/
def getCheckpointMetadata (config : Config) (metadata : Metadata) : Metadata :=
  metadata.foldl (fun m kv => ainsert m kv.1 kv.2) config.meta_ambient

/-- The serialized core of a checkpoint: every field except `channel_values`
(`id`, `channel_versions`, and the remaining fields collapsed into `rest`). -/
structure CoreCheckpoint where
  id : String
  channel_versions : List (String × String)
  rest : String
deriving DecidableEq, Repr

/-- A caller-supplied checkpoint, before `put` strips its channel values. -/
structure Checkpoint where
  id : String
  channel_versions : List (String × String)
  channel_values : List (String × Value)
  rest : String
deriving DecidableEq, Repr

/-- A checkpoint as returned by `get_tuple`/`list`: the stored core merged with
the channel values reconstructed from the blob table. -/
structure LoadedCheckpoint where
  core : CoreCheckpoint
  channel_values : List (String × Value)
deriving DecidableEq, Repr

/-- The `CheckpointTuple` result shape. -/
structure CheckpointTuple where
  config : Config
  checkpoint : LoadedCheckpoint
  metadata : Metadata
  parent_config : Option Config
  pending_writes : List (String × String × Value)
deriving DecidableEq, Repr

/-- Storage table entry: (serialized core checkpoint, serialized metadata,
parent checkpoint id), with the identity serde left transparent. -/
abbrev StorEntry := CoreCheckpoint × Metadata × Option String

/-- Key of the writes table: (thread id, checkpoint ns, checkpoint id). -/
abbrev WKey := String × String × String

/-- A stored pending write: (task id, channel, serialized value, task path). -/
abbrev WriteEntry := String × String × Serialized × String

/-- Key of the blobs table: (thread id, checkpoint ns, channel, version). -/
abbrev BKey := String × String × String × String

/-- The `InMemorySaver` state: its three tables. -/
structure SaverState where
  storage : List (String × List (String × List (String × StorEntry)))
  writes : List (WKey × List ((String × Int) × WriteEntry))
  blobs : List (BKey × Serialized)
deriving DecidableEq, Repr

/-- The empty saver. -/
def emptySaver : SaverState := { storage := [], writes := [], blobs := [] }

/-- `self.storage[thread_id]` (a defaultdict read: missing keys act as empty). -/
def storGetT (s : SaverState) (t : String) : List (String × List (String × StorEntry)) :=
  (aget? s.storage t).getD []

/-- `self.storage[thread_id][checkpoint_ns]` (defaultdict reads). -/
def storGetNs (s : SaverState) (t ns : String) : List (String × StorEntry) :=
  (aget? (storGetT s t) ns).getD []

/-- `self.writes[key]` (a defaultdict read: missing keys act as empty). -/
def wget (s : SaverState) (k : WKey) : List ((String × Int) × WriteEntry) :=
  (aget? s.writes k).getD []

/-- `InMemorySaver._load_blobs`: resolve a channel-versions map against the
blob table, skipping missing keys and entries tagged with the `"empty"`
sentinel. -/
def load_blobs (s : SaverState) (thread_id checkpoint_ns : String)
    (versions : List (String × String)) : List (String × Value) :=
  versions.foldl
    (fun acc kv =>
      match aget? s.blobs (thread_id, checkpoint_ns, kv.1, kv.2) with
      | some vv => if vv.1 ≠ "empty" then acc ++ [(kv.1, loadsVal vv)] else acc
      | none => acc)
    []

/-- Decode a checkpoint's staged writes:
`[(id, c, loads_typed(v)) for id, c, v, _ in writes.values()]`. -/
def pendingOf (ws : List ((String × Int) × WriteEntry)) : List (String × String × Value) :=
  ws.map (fun iw => (iw.2.1, iw.2.2.1, loadsVal iw.2.2.2.1))

/-- The parent config attached to results: built only when the stored parent
checkpoint id is truthy (present and nonempty). -/
def parentConfig (thread_id checkpoint_ns : String) (parent : Option String) : Option Config :=
  match parent with
  | some p => if p ≠ "" then
      some { thread_id := thread_id, checkpoint_ns := some checkpoint_ns,
             checkpoint_id := some p, meta_ambient := [] }
    else none
  | none => none

/-- The fresh config dict built for results that address a specific checkpoint. -/
def mkCkptConfig (thread_id checkpoint_ns checkpoint_id : String) : Config :=
  { thread_id := thread_id, checkpoint_ns := some checkpoint_ns,
    checkpoint_id := some checkpoint_id, meta_ambient := [] }

/-- Assemble the `CheckpointTuple` for a stored entry, shared by the
latest-checkpoint branch of `get_tuple` and by `list`. -/
def mkListTuple (s : SaverState) (t ns cid : String) (e : StorEntry) : CheckpointTuple :=
  { config := mkCkptConfig t ns cid,
    checkpoint := { core := e.1, channel_values := load_blobs s t ns e.1.channel_versions },
    metadata := e.2.1,
    parent_config := parentConfig t ns e.2.2,
    pending_writes := pendingOf (wget s (t, ns, cid)) }

/-- `InMemorySaver.get_tuple`: exact-id lookup when the config carries a truthy
checkpoint id, otherwise the checkpoint with the maximum id in the namespace;
`none` when nothing matches. -/
def get_tuple (s : SaverState) (config : Config) : Option CheckpointTuple :=
  let thread_id := config.thread_id
  let checkpoint_ns := (config.checkpoint_ns).getD ""
  let cid := getCheckpointId config
  if cid ≠ "" then
    match aget? (storGetNs s thread_id checkpoint_ns) cid with
    | some e =>
      some { config := config,
             checkpoint := { core := e.1,
                             channel_values := load_blobs s thread_id checkpoint_ns e.1.channel_versions },
             metadata := e.2.1,
             parent_config := parentConfig thread_id checkpoint_ns e.2.2,
             pending_writes := pendingOf (wget s (thread_id, checkpoint_ns, cid)) }
    | none => none
  else
    let checkpoints := storGetNs s thread_id checkpoint_ns
    if checkpoints = [] then none
    else
      let cid := maxKey checkpoints
      match aget? checkpoints cid with
      | some e => some (mkListTuple s thread_id checkpoint_ns cid e)
      | none => none

/-- The innermost loop of `InMemorySaver.list`: walk the descending-sorted
items of one namespace, applying the exact-id, `before`, and metadata filters
and then the limit counter (yielded tuples, remaining limit). -/
def listItems (s : SaverState) (t ns : String) (ccid bcid : Option String)
    (filt : Option Metadata) :
    List (String × StorEntry) → Option Int → List CheckpointTuple × Option Int
  | [], lim => ([], lim)
  | (cid, e) :: rest, lim =>
    if (match ccid with | some c => cid != c | none => false) then
      listItems s t ns ccid bcid filt rest lim
    else if (match bcid with | some b => !strLt cid b | none => false) then
      listItems s t ns ccid bcid filt rest lim
    else if (match filt with
             | some f => !(f.all fun kv => decide (aget? e.2.1 kv.1 = some kv.2))
             | none => false) then
      listItems s t ns ccid bcid filt rest lim
    else
      match lim with
      | some l =>
        if l ≤ 0 then ([], some l)
        else
          let r := listItems s t ns ccid bcid filt rest (some (l - 1))
          (mkListTuple s t ns cid e :: r.1, r.2)
      | none =>
        let r := listItems s t ns ccid bcid filt rest none
        (mkListTuple s t ns cid e :: r.1, r.2)

/-- The namespace loop of `InMemorySaver.list`. -/
def listNss (s : SaverState) (t : String) (cns ccid bcid : Option String)
    (filt : Option Metadata) :
    List String → Option Int → List CheckpointTuple × Option Int
  | [], lim => ([], lim)
  | ns :: rest, lim =>
    if (match cns with | some x => ns != x | none => false) then
      listNss s t cns ccid bcid filt rest lim
    else
      let r1 := listItems s t ns ccid bcid filt (sortDesc (storGetNs s t ns)) lim
      let r2 := listNss s t cns ccid bcid filt rest r1.2
      (r1.1 ++ r2.1, r2.2)

/-- The thread loop of `InMemorySaver.list`. -/
def listThreads (s : SaverState) (cns ccid bcid : Option String)
    (filt : Option Metadata) :
    List String → Option Int → List CheckpointTuple × Option Int
  | [], lim => ([], lim)
  | t :: rest, lim =>
    let r1 := listNss s t cns ccid bcid filt ((storGetT s t).map Prod.fst) lim
    let r2 := listThreads s cns ccid bcid filt rest r1.2
    (r1.1 ++ r2.1, r2.2)

/-- `InMemorySaver.list`: scan the selected threads, then each namespace in
insertion order, then its checkpoints sorted by id descending. The truthiness
of `get_checkpoint_id` (empty string = absent) and of an empty metadata filter
is normalised here, as in the source's `and`-chains. -/
def listCkpts (s : SaverState) (config : Option Config) (filt : Option Metadata)
    (before : Option Config) (lim : Option Int) : List CheckpointTuple :=
  let threads := match config with
    | some c => [c.thread_id]
    | none => s.storage.map Prod.fst
  let cns := config.bind (fun c => c.checkpoint_ns)
  let ccid := match config with
    | some c => if getCheckpointId c = "" then none else some (getCheckpointId c)
    | none => none
  let bcid := match before with
    | some b => if getCheckpointId b = "" then none else some (getCheckpointId b)
    | none => none
  let filt' := match filt with
    | some f => if f = [] then none else some f
    | none => none
  (listThreads s cns ccid bcid filt' threads lim).1

/-- The body of `InMemorySaver.put` after the config keys are read and the
channel values are popped from the copied checkpoint: fan the new versions out
into the blob table (value when present, `("empty", b"")` sentinel otherwise),
then record the core checkpoint under its id. -/
def putCore (s : SaverState) (t ns : String) (core : CoreCheckpoint)
    (values : List (String × Value)) (new_versions : List (String × String))
    (md : Metadata) (parent : Option String) : SaverState :=
  let blobs := new_versions.foldl
    (fun b kv =>
      ainsert b (t, ns, kv.1, kv.2)
        (match aget? values kv.1 with
         | some x => dumpsVal x
         | none => ("empty", "")))
    s.blobs
  { s with
    blobs := blobs,
    storage :=
      ainsert s.storage t
        (ainsert (storGetT s t) ns
          (ainsert (storGetNs s t ns) core.id (core, md, parent))) }

/-- `InMemorySaver.put`. `none` models the `KeyError` when the config lacks
`checkpoint_ns`; otherwise returns the new state and the resumable address of
the committed checkpoint. -/
def put (s : SaverState) (config : Config) (checkpoint : Checkpoint)
    (metadata : Metadata) (new_versions : List (String × String)) :
    Option (SaverState × Config) :=
  match config.checkpoint_ns with
  | none => none
  | some ns =>
    let t := config.thread_id
    let values := checkpoint.channel_values
    let core : CoreCheckpoint :=
      { id := checkpoint.id, channel_versions := checkpoint.channel_versions,
        rest := checkpoint.rest }
    some (putCore s t ns core values new_versions
            (getCheckpointMetadata config metadata) config.checkpoint_id,
          { thread_id := t, checkpoint_ns := some ns,
            checkpoint_id := some checkpoint.id, meta_ambient := [] })

/-- The enumeration loop of `InMemorySaver.put_writes`. `existed` records
whether the outer key was present at call entry: the source binds
`outer_writes_ = self.writes.get(outer_key)` once, so when the key was absent
the dedup test is skipped for the whole call, and when it was present the
bound dict aliases the live one and sees entries added by this same call. -/
def putWritesLoop (idxMap : List (String × Int)) (existed : Bool) (outerKey : WKey)
    (task_id task_path : String) :
    Nat → List (String × Value) → List (WKey × List ((String × Int) × WriteEntry)) →
    List (WKey × List ((String × Int) × WriteEntry))
  | _, [], w => w
  | idx, (c, v) :: rest, w =>
    let wi : Int := (aget? idxMap c).getD (idx : Int)
    let inner := (aget? w outerKey).getD []
    if decide (0 ≤ wi) && existed && (aget? inner (task_id, wi)).isSome then
      putWritesLoop idxMap existed outerKey task_id task_path (idx + 1) rest w
    else
      putWritesLoop idxMap existed outerKey task_id task_path (idx + 1) rest
        (ainsert w outerKey (ainsert inner (task_id, wi) (task_id, c, dumpsVal v, task_path)))

/-- `InMemorySaver.put_writes`. `idxMap` models `WRITES_IDX_MAP` of
`langgraph.checkpoint.base` (not part of the sources under review); per the
spec it is configuration mapping each reserved channel name to a fixed
negative index. `none` models the `KeyError` when the config lacks
`checkpoint_id`. -/
def put_writes (idxMap : List (String × Int)) (s : SaverState) (config : Config)
    (writes : List (String × Value)) (task_id : String) (task_path : String) :
    Option SaverState :=
  match config.checkpoint_id with
  | none => none
  | some cid =>
    let t := config.thread_id
    let ns := (config.checkpoint_ns).getD ""
    let outerKey : WKey := (t, ns, cid)
    let existed := (aget? s.writes outerKey).isSome
    some { s with
           writes := putWritesLoop idxMap existed outerKey task_id task_path 0 writes s.writes }

/-- `InMemorySaver.delete_thread`: drop the thread's storage entry and every
writes/blobs entry whose key begins with the thread id. -/
def delete_thread (s : SaverState) (thread_id : String) : SaverState :=
  { storage := s.storage.filter (fun p => decide (p.1 ≠ thread_id)),
    writes := s.writes.filter (fun p => decide (p.1.1 ≠ thread_id)),
    blobs := s.blobs.filter (fun p => decide (p.1.1 ≠ thread_id)) }

/-- Digit to character, for decimal formatting. -/
def digitToChar : Nat → Char
  | 0 => '0' | 1 => '1' | 2 => '2' | 3 => '3' | 4 => '4'
  | 5 => '5' | 6 => '6' | 7 => '7' | 8 => '8' | _ => '9'

/-- Decimal representation of a natural number, most significant digit first. -/
def natToChars (n : Nat) : List Char :=
  if n = 0 then ['0'] else ((Nat.digits 10 n).reverse).map digitToChar

/-- Decimal representation of an integer (sign-aware). -/
def intToChars (i : Int) : List Char :=
  if i < 0 then '-' :: natToChars i.natAbs else natToChars i.toNat

/-- Python's sign-aware zero padding `f"{v:0{w}}"`: pad with `'0'` after the
sign up to total width `w` (never truncates). -/
def zfillChars (cs : List Char) (w : Nat) : List Char :=
  if cs.head? = some '-' then
    '-' :: (List.replicate (w - 1 - cs.tail.length) '0' ++ cs.tail)
  else List.replicate (w - cs.length) '0' ++ cs

/-- `f"{next_v:032}.{next_h:016}"`, with the formatted random component
supplied as the oracle string `rand`. -/
def formatVersion (v : Int) (rand : String) : String :=
  String.mk (zfillChars (intToChars v) 32 ++ '.' :: rand.data)

/-- Numeric value of a digit character. -/
def charVal (c : Char) : Nat := c.toNat - 48

/-- Is this character a decimal digit? -/
def isDigitCh (c : Char) : Bool := 48 ≤ c.toNat && c.toNat ≤ 57

/-- Python `int(...)` on an unsigned decimal string: all characters must be
digits and the string nonempty; the value is the decimal fold. -/
def charsToNat? (cs : List Char) : Option Nat :=
  if cs.isEmpty then none
  else if cs.all isDigitCh then some (cs.foldl (fun a c => 10 * a + charVal c) 0)
  else none

/-- Python `int(...)` on a decimal string with an optional leading minus sign. -/
def charsToInt? (cs : List Char) : Option Int :=
  if cs.head? = some '-' then (charsToNat? cs.tail).map (fun n => -(n : Int))
  else (charsToNat? cs).map (fun n => (n : Int))

/-- `int(s.split(".")[0])` as used by `get_next_version`: parse the characters
before the first `'.'` (the whole string when there is none). -/
def versionIntPart (s : String) : Option Int :=
  charsToInt? (s.data.takeWhile (fun c => !(c == '.')))

/-- The integer `current_v` that `get_next_version` derives from its `current`
argument: `0` for `None`, a bare integer as itself, else the parsed integer
part of the string; `none` when the parse fails. -/
def currentIntOf : Option (Sum String Int) → Option Int
  | none => some 0
  | some (Sum.inr i) => some i
  | some (Sum.inl s) => versionIntPart s

/-- `InMemorySaver.get_next_version`. The `ValueError` that `int(...)` raises
on an unparsable integer part is modelled as `Except.error`. -/
def get_next_version (current : Option (Sum String Int)) (rand : String) :
    Except String String :=
  match current with
  | none => Except.ok (formatVersion (0 + 1) rand)
  | some (Sum.inr i) => Except.ok (formatVersion (i + 1) rand)
  | some (Sum.inl s) =>
    match versionIntPart s with
    | some n => Except.ok (formatVersion (n + 1) rand)
    | none => Except.error "invalid literal for int() with base 10"

/-- The disk state `PersistentDict.sync` touches: the destination file and the
temporary file (`filename + ".tmp"`), each `none` when absent. -/
structure DiskState where
  dest : Option String
  temp : Option String
deriving DecidableEq, Repr

/-- `PersistentDict.sync`: no-op in read-only mode; otherwise create/truncate
the temporary file, run the serializer, and either remove the temporary file
and propagate the error, or atomically move the temporary file over the
destination. `dump` stands for the serialization of the in-memory mapping. -/
def pd_sync (flag : String) (dump : Except String String) (d : DiskState) :
    DiskState × Option String :=
  if flag = "r" then (d, none)
  else
    let opened : DiskState := { d with temp := some "" }
    match dump with
    | Except.error e => ({ opened with temp := none }, some e)
    | Except.ok bytes =>
      let written : DiskState := { opened with temp := some bytes }
      ({ dest := written.temp, temp := none }, none)

/-- A Python checkpoint dict as a heap cell, for observing mutation:
`channel_values` is `none` after the key has been popped. -/
structure PyCkpt where
  id : String
  channel_versions : List (String × String)
  channel_values : Option (List (String × Value))
  rest : String
deriving DecidableEq, Repr

/-- A heap of checkpoint dicts, addressed by allocation index. -/
abbrev Heap := List PyCkpt

/-- `InMemorySaver.put` with the caller's checkpoint dict held on an explicit
heap, making the `c = checkpoint.copy()` / `c.pop("channel_values")` mutation
observable: the copy allocates a fresh cell and the pop mutates only that
fresh cell. `none` models the `KeyError` paths. -/
def put_mut (s : SaverState) (h : Heap) (ckptRef : Nat) (config : Config)
    (metadata : Metadata) (new_versions : List (String × String)) :
    Option (SaverState × Heap × Config) :=
  match config.checkpoint_ns with
  | none => none
  | some ns =>
    match h[ckptRef]? with
    | none => none
    | some d =>
      let h1 := h ++ [d]
      let cRef := h.length
      match d.channel_values with
      | none => none
      | some values =>
        let h2 := h1.set cRef { d with channel_values := none }
        let core : CoreCheckpoint :=
          { id := d.id, channel_versions := d.channel_versions, rest := d.rest }
        some (putCore s config.thread_id ns core values new_versions
                (getCheckpointMetadata config metadata) config.checkpoint_id,
              h2,
              { thread_id := config.thread_id, checkpoint_ns := some ns,
                checkpoint_id := some d.id, meta_ambient := [] })

/-! ### Lemmas: the dict model -/

theorem aget?_cons {K V : Type} [DecidableEq K] (p : K × V) (d : List (K × V)) (k : K) :
    aget? (p :: d) k = if p.1 = k then some p.2 else aget? d k := by
  by_cases h : p.1 = k <;> simp [aget?, List.find?_cons, h]

theorem aget?_eq_none_of_any_eq_false {K V : Type} [DecidableEq K] {d : List (K × V)} {k : K}
    (h : d.any (fun p => decide (p.1 = k)) = false) : aget? d k = none := by
  induction d with
  | nil => rfl
  | cons p d ih =>
    simp only [List.any_cons, Bool.or_eq_false_iff, decide_eq_false_iff_not] at h
    rw [aget?_cons, if_neg h.1]
    exact ih h.2

theorem aget?_map_update_self {K V : Type} [DecidableEq K] (d : List (K × V)) (k : K) (v : V)
    (h : d.any (fun p => decide (p.1 = k)) = true) :
    aget? (d.map (fun p => if p.1 = k then (k, v) else p)) k = some v := by
  induction d with
  | nil => simp at h
  | cons p d ih =>
    by_cases hp : p.1 = k
    · simp [aget?_cons, hp]
    · simp only [List.any_cons, Bool.or_eq_true_iff, decide_eq_true_eq] at h
      rcases h with h | h
      · exact absurd h hp
      · simp only [List.map_cons, if_neg hp]
        rw [aget?_cons, if_neg hp]
        exact ih h

theorem aget?_ainsert_self {K V : Type} [DecidableEq K] (d : List (K × V)) (k : K) (v : V) :
    aget? (ainsert d k v) k = some v := by
  unfold ainsert
  split
  · exact aget?_map_update_self d k v (by assumption)
  · rename_i h
    have hfind : d.find? (fun p => decide (p.1 = k)) = none := by
      rw [List.find?_eq_none]
      intro x hx
      rw [Bool.not_eq_true, List.any_eq_false] at h
      exact h x hx
    unfold aget?
    rw [List.find?_append, hfind]
    simp [List.find?_cons]

theorem aget?_map_update_ne {K V : Type} [DecidableEq K] (d : List (K × V)) (k k' : K) (v : V)
    (h : k' ≠ k) :
    aget? (d.map (fun p => if p.1 = k then (k, v) else p)) k' = aget? d k' := by
  induction d with
  | nil => rfl
  | cons p d ih =>
    simp only [List.map_cons]
    by_cases hp : p.1 = k
    · rw [if_pos hp, aget?_cons, aget?_cons]
      have h1 : ¬ ((k, v).1 = k') := fun hh => h hh.symm
      have h2 : ¬ (p.1 = k') := by
        rw [hp]; exact fun hh => h hh.symm
      rw [if_neg h1, if_neg h2]
      exact ih
    · rw [if_neg hp, aget?_cons, aget?_cons]
      by_cases hpk : p.1 = k'
      · rw [if_pos hpk, if_pos hpk]
      · rw [if_neg hpk, if_neg hpk]
        exact ih

theorem aget?_ainsert_ne {K V : Type} [DecidableEq K] (d : List (K × V)) (k k' : K) (v : V)
    (h : k' ≠ k) : aget? (ainsert d k v) k' = aget? d k' := by
  unfold ainsert
  split
  · exact aget?_map_update_ne d k k' v h
  · unfold aget?
    rw [List.find?_append]
    have hone : List.find? (fun p => decide (p.1 = k')) [(k, v)] = none := by
      simp [List.find?_cons, Ne.symm h]
    rw [hone, Option.or_none]

theorem aget?_filter_ne {K V : Type} [DecidableEq K] (d : List (K × V)) (q : K → Bool) (k : K)
    (hk : q k = true) :
    aget? (d.filter (fun p => q p.1)) k = aget? d k := by
  induction d with
  | nil => rfl
  | cons p d ih =>
    by_cases hp : p.1 = k
    · have hq : q p.1 = true := by rw [hp]; exact hk
      simp only [List.filter_cons, hq, if_pos trivial]
      rw [aget?_cons, aget?_cons, if_pos hp, if_pos hp]
    · rw [aget?_cons, if_neg hp]
      by_cases hq : q p.1 = true
      · simp only [List.filter_cons, hq, if_pos trivial]
        rw [aget?_cons, if_neg hp]
        exact ih
      · simp only [List.filter_cons, Bool.eq_false_iff.mpr hq]
        simpa using ih

/-! ### Lemmas: the lexicographic string order -/

theorem char_eq_of_toNat_eq {a b : Char} (h : a.toNat = b.toNat) : a = b :=
  Char.eq_of_val_eq (UInt32.ext h)

theorem lexLt_irrefl (l : List Char) : lexLt l l = false := by
  induction l with
  | nil => rfl
  | cons a l ih => simp [lexLt, ih]

theorem lexLt_asymm {a b : List Char} (h : lexLt a b = true) : lexLt b a = false := by
  induction a generalizing b with
  | nil =>
    cases b with
    | nil => simp [lexLt] at h
    | cons c cs => simp [lexLt]
  | cons x xs ih =>
    cases b with
    | nil => simp [lexLt] at h
    | cons y ys =>
      simp only [lexLt] at h ⊢
      by_cases h1 : x.toNat < y.toNat
      · have h2 : ¬ y.toNat < x.toNat := by omega
        simp [h1, h2]
      · by_cases h2 : y.toNat < x.toNat
        · simp [h1, h2] at h
        · simp only [h1, h2, if_neg, if_false] at h ⊢
          simpa using ih (by simpa using h)

theorem lexLt_trans {a b c : List Char} (h1 : lexLt a b = true) (h2 : lexLt b c = true) :
    lexLt a c = true := by
  induction a generalizing b c with
  | nil =>
    cases b with
    | nil => simp [lexLt] at h1
    | cons y ys =>
      cases c with
      | nil => simp [lexLt] at h2
      | cons z zs => simp [lexLt]
  | cons x xs ih =>
    cases b with
    | nil => simp [lexLt] at h1
    | cons y ys =>
      cases c with
      | nil => simp [lexLt] at h2
      | cons z zs =>
        simp only [lexLt] at h1 h2 ⊢
        by_cases hxy : x.toNat < y.toNat
        · by_cases hyz : y.toNat < z.toNat
          · have : x.toNat < z.toNat := by omega
            simp [this]
          · by_cases hzy : z.toNat < y.toNat
            · simp [hxy, hyz, hzy] at h2
            · have hy : y.toNat = z.toNat := by omega
              have : x.toNat < z.toNat := by omega
              simp [this]
        · by_cases hyx : y.toNat < x.toNat
          · simp [hxy, hyx] at h1
          · have hx : x.toNat = y.toNat := by omega
            by_cases hyz : y.toNat < z.toNat
            · have : x.toNat < z.toNat := by omega
              simp [this]
            · by_cases hzy : z.toNat < y.toNat
              · simp [hyz, hzy] at h2
              · have hz : y.toNat = z.toNat := by omega
                have hnlt1 : ¬ x.toNat < z.toNat := by omega
                have hnlt2 : ¬ z.toNat < x.toNat := by omega
                rw [if_neg hxy, if_neg hyx] at h1
                rw [if_neg hyz, if_neg hzy] at h2
                rw [if_neg hnlt1, if_neg hnlt2]
                exact ih h1 h2

theorem lexLt_connex {a b : List Char} (h1 : lexLt a b = false) (h2 : lexLt b a = false) :
    a = b := by
  induction a generalizing b with
  | nil =>
    cases b with
    | nil => rfl
    | cons y ys => simp [lexLt] at h1
  | cons x xs ih =>
    cases b with
    | nil => simp [lexLt] at h2
    | cons y ys =>
      simp only [lexLt] at h1 h2
      by_cases hxy : x.toNat < y.toNat
      · simp [hxy] at h1
      · by_cases hyx : y.toNat < x.toNat
        · simp [hxy, hyx] at h2
        · have hx : x.toNat = y.toNat := by omega
          simp only [hxy, hyx, if_neg, if_false] at h1 h2
          have hxs : xs = ys := ih (by simpa using h1) (by simpa using h2)
          rw [char_eq_of_toNat_eq hx, hxs]

theorem lexLt_of_lt_of_nlt {a b c : List Char} (h1 : lexLt a b = true)
    (h2 : lexLt c b = false) : lexLt a c = true := by
  by_cases hac : lexLt a c = true
  · exact hac
  · by_cases hca : lexLt c a = true
    · exact absurd (lexLt_trans hca h1) (by simp [h2])
    · have : a = c := lexLt_connex (by simpa using hac) (by simpa using hca)
      subst this
      exact absurd h1 (by simp [h2])

theorem strLt_irrefl (a : String) : strLt a a = false := lexLt_irrefl a.data

theorem strLt_asymm {a b : String} (h : strLt a b = true) : strLt b a = false :=
  lexLt_asymm h

theorem strLt_trans {a b c : String} (h1 : strLt a b = true) (h2 : strLt b c = true) :
    strLt a c = true := lexLt_trans h1 h2

theorem strLt_connex {a b : String} (h1 : strLt a b = false) (h2 : strLt b a = false) :
    a = b := by
  cases a with
  | mk da =>
    cases b with
    | mk db => exact congrArg String.mk (lexLt_connex h1 h2)

theorem strLt_of_lt_of_nlt {a b c : String} (h1 : strLt a b = true)
    (h2 : strLt c b = false) : strLt a c = true := lexLt_of_lt_of_nlt h1 h2

/-! ### Lemmas: maxKey and the descending sort -/

theorem foldlMax_spec {E : Type} (xs : List (String × E)) (m : String) :
    (xs.foldl (fun m p => if strLt m p.1 then p.1 else m) m = m ∨
       xs.foldl (fun m p => if strLt m p.1 then p.1 else m) m ∈ xs.map Prod.fst) ∧
    strLt (xs.foldl (fun m p => if strLt m p.1 then p.1 else m) m) m = false ∧
    ∀ k ∈ xs.map Prod.fst,
      strLt (xs.foldl (fun m p => if strLt m p.1 then p.1 else m) m) k = false := by
  induction xs generalizing m with
  | nil => exact ⟨Or.inl rfl, strLt_irrefl m, by simp⟩
  | cons p rest ih =>
    simp only [List.foldl_cons]
    by_cases hm : strLt m p.1 = true
    · rw [if_pos hm]
      obtain ⟨hmem, hge, hall⟩ := ih p.1
      refine ⟨?_, ?_, ?_⟩
      · rcases hmem with h | h
        · exact Or.inr (by simp [h])
        · exact Or.inr (by simp [h])
      · by_cases hc : strLt (rest.foldl (fun m p => if strLt m p.1 then p.1 else m) p.1) m = true
        · exact absurd (strLt_trans hc hm) (by simp [hge])
        · simpa using hc
      · intro k hk
        simp only [List.map_cons, List.mem_cons] at hk
        rcases hk with h | h
        · rw [h]; exact hge
        · exact hall k h
    · rw [if_neg hm]
      obtain ⟨hmem, hge, hall⟩ := ih m
      refine ⟨?_, hge, ?_⟩
      · rcases hmem with h | h
        · exact Or.inl h
        · exact Or.inr (by simp [h])
      · intro k hk
        simp only [List.map_cons, List.mem_cons] at hk
        rcases hk with h | h
        · by_cases hc2 : strLt (rest.foldl (fun m p => if strLt m p.1 then p.1 else m) m) k = true
          · exfalso
            have hmk : strLt m k = false := by rw [h]; simpa using hm
            by_cases hkm : strLt k m = true
            · have := strLt_trans hc2 hkm
              simp [hge] at this
            · have hkm2 : k = m := strLt_connex (by simpa using hkm) hmk
              rw [hkm2] at hc2
              simp [hge] at hc2
          · simpa using hc2
        · exact hall k h

theorem maxKey_mem {E : Type} (l : List (String × E)) (h : l ≠ []) :
    maxKey l ∈ l.map Prod.fst := by
  cases l with
  | nil => exact absurd rfl h
  | cons x xs =>
    obtain ⟨hmem, _, _⟩ := foldlMax_spec xs x.1
    rcases hmem with h | h
    · simp [maxKey, h]
    · simp only [maxKey, List.map_cons, List.mem_cons]
      exact Or.inr h

theorem maxKey_ge {E : Type} (l : List (String × E)) (k : String) (hk : k ∈ l.map Prod.fst) :
    strLt (maxKey l) k = false := by
  cases l with
  | nil => simp at hk
  | cons x xs =>
    obtain ⟨_, hge, hall⟩ := foldlMax_spec xs x.1
    simp only [List.map_cons, List.mem_cons] at hk
    rcases hk with h | h
    · rw [h]; exact hge
    · exact hall k h

theorem insertByDesc_perm {E : Type} (x : String × E) (l : List (String × E)) :
    (insertByDesc x l).Perm (x :: l) := by
  induction l with
  | nil => exact List.Perm.refl _
  | cons y ys ih =>
    unfold insertByDesc
    by_cases h : strLt y.1 x.1 = true
    · rw [if_pos h]
    · rw [if_neg h]
      exact (ih.cons y).trans (List.Perm.swap x y ys)

theorem mem_insertByDesc {E : Type} {z x : String × E} {l : List (String × E)} :
    z ∈ insertByDesc x l ↔ z = x ∨ z ∈ l := by
  rw [(insertByDesc_perm x l).mem_iff]
  simp

theorem sortDesc_perm {E : Type} (l : List (String × E)) : (sortDesc l).Perm l := by
  induction l with
  | nil => exact List.Perm.refl _
  | cons x xs ih => exact (insertByDesc_perm x (sortDesc xs)).trans (ih.cons x)

theorem pairwise_insertByDesc {E : Type} (x : String × E) (l : List (String × E))
    (h : l.Pairwise (fun a b => strLt a.1 b.1 = false)) :
    (insertByDesc x l).Pairwise (fun a b => strLt a.1 b.1 = false) := by
  induction l with
  | nil => simp [insertByDesc]
  | cons y ys ih =>
    rw [List.pairwise_cons] at h
    obtain ⟨hy, hys⟩ := h
    unfold insertByDesc
    by_cases hc : strLt y.1 x.1 = true
    · rw [if_pos hc]
      rw [List.pairwise_cons]
      constructor
      · intro z hz
        simp only [List.mem_cons] at hz
        rcases hz with h | h
        · rw [h]; exact strLt_asymm hc
        · by_cases hxz : strLt x.1 z.1 = true
          · exact absurd (strLt_trans hc hxz) (by simp [hy z h])
          · simpa using hxz
      · rw [List.pairwise_cons]
        exact ⟨hy, hys⟩
    · rw [if_neg hc]
      rw [List.pairwise_cons]
      constructor
      · intro z hz
        rw [mem_insertByDesc] at hz
        rcases hz with h | h
        · rw [h]; simpa using hc
        · exact hy z h
      · exact ih hys

theorem sortDesc_pairwise {E : Type} (l : List (String × E)) :
    (sortDesc l).Pairwise (fun a b => strLt a.1 b.1 = false) := by
  induction l with
  | nil => simp [sortDesc]
  | cons x xs ih => exact pairwise_insertByDesc x (sortDesc xs) ih

/-! ### Lemmas: more dict facts -/

theorem aget?_append {K V : Type} [DecidableEq K] (l1 l2 : List (K × V)) (k : K) :
    aget? (l1 ++ l2) k = match aget? l1 k with
      | some v => some v
      | none => aget? l2 k := by
  unfold aget?
  rw [List.find?_append]
  cases h : l1.find? (fun p => decide (p.1 = k)) with
  | none => simp
  | some p => simp

theorem aget?_eq_none_of_not_mem {K V : Type} [DecidableEq K] {d : List (K × V)} {k : K}
    (h : k ∉ d.map Prod.fst) : aget? d k = none := by
  induction d with
  | nil => rfl
  | cons p rest ih =>
    simp only [List.map_cons, List.mem_cons, not_or] at h
    rw [aget?_cons, if_neg (fun hh => h.1 hh.symm)]
    exact ih h.2

theorem aget?_isSome_of_mem {K V : Type} [DecidableEq K] {d : List (K × V)} {k : K}
    (h : k ∈ d.map Prod.fst) : (aget? d k).isSome = true := by
  induction d with
  | nil => simp at h
  | cons p rest ih =>
    rw [aget?_cons]
    by_cases hp : p.1 = k
    · rw [if_pos hp]; rfl
    · rw [if_neg hp]
      simp only [List.map_cons, List.mem_cons] at h
      rcases h with h | h
      · exact absurd h.symm hp
      · exact ih h

theorem aget?_filter_eq_false {K V : Type} [DecidableEq K] (d : List (K × V)) (q : K → Bool)
    (k : K) (hk : q k = false) :
    aget? (d.filter (fun p => q p.1)) k = none := by
  induction d with
  | nil => rfl
  | cons p rest ih =>
    by_cases hq : q p.1 = true
    · have hp : ¬ p.1 = k := fun hh => by rw [hh, hk] at hq; exact Bool.false_ne_true hq
      simp only [List.filter_cons, hq, if_pos trivial]
      rw [aget?_cons, if_neg hp]
      exact ih
    · simp only [List.filter_cons, Bool.eq_false_iff.mpr hq]
      simpa using ih

/-! ### Claim C9: sync atomicity on serialization failure -/

/-- C9: when serialization fails during `PersistentDict.sync` (in any
non-read-only mode), the temporary file is removed, the error propagates to
the caller, and the destination file retains exactly its prior contents. -/
theorem pd_sync_error_atomic (flag : String) (e : String) (d : DiskState)
    (hflag : flag ≠ "r") :
    (pd_sync flag (Except.error e) d).1.dest = d.dest ∧
    (pd_sync flag (Except.error e) d).1.temp = none ∧
    (pd_sync flag (Except.error e) d).2 = some e := by
  unfold pd_sync
  rw [if_neg hflag]
  exact ⟨rfl, rfl, rfl⟩

/-- Witness for C9 at a concrete disk state. -/
theorem pd_sync_error_atomic_witness :
    (pd_sync "c" (Except.error "boom") ⟨some "old", none⟩).1.dest = some "old" ∧
    (pd_sync "c" (Except.error "boom") ⟨some "old", none⟩).1.temp = none ∧
    (pd_sync "c" (Except.error "boom") ⟨some "old", none⟩).2 = some "boom" :=
  pd_sync_error_atomic "c" "boom" ⟨some "old", none⟩ (by decide)

/-! ### Claim C8: malformed version string fails loudly -/

/-- C8: when the part of the current version string before the first `.`
separator does not parse as an integer, `get_next_version` raises (returns an
error) instead of silently defaulting. -/
theorem get_next_version_malformed (s : String) (rand : String)
    (h : versionIntPart s = none) :
    get_next_version (some (Sum.inl s)) rand =
      Except.error "invalid literal for int() with base 10" := by
  simp only [get_next_version, h]

/-- Witness for C8: `"abc.1"` has an unparsable integer part. -/
theorem get_next_version_malformed_witness :
    get_next_version (some (Sum.inl "abc.1")) "123" =
      Except.error "invalid literal for int() with base 10" :=
  get_next_version_malformed "abc.1" "123" (by decide)

/-! ### Claim C10: put does not mutate the caller's checkpoint -/

/-- C10: `put` copies the caller's checkpoint dict and pops `channel_values`
only from the copy, so after a successful `put` the caller's dict is unchanged
on the heap and still holds its original `channel_values`. -/
theorem put_mut_no_mutation (s : SaverState) (h : Heap) (r : Nat) (config : Config)
    (md : Metadata) (nv : List (String × String)) (s' : SaverState) (h' : Heap)
    (cfg' : Config)
    (hrun : put_mut s h r config md nv = some (s', h', cfg')) :
    h'[r]? = h[r]? ∧
    ∃ d vs, h[r]? = some d ∧ d.channel_values = some vs ∧ h'[r]? = some d := by
  unfold put_mut at hrun
  cases hns : config.checkpoint_ns with
  | none => simp [hns] at hrun
  | some ns =>
    cases hd : h[r]? with
    | none => simp [hns, hd] at hrun
    | some d =>
      cases hcv : d.channel_values with
      | none => simp [hns, hd, hcv] at hrun
      | some vs =>
        simp only [hns, hd, hcv] at hrun
        rw [Option.some_inj] at hrun
        have hh : h' = (h ++ [d]).set h.length { d with channel_values := none } := by
          have hproj := congrArg (fun x => x.2.1) hrun
          simpa using hproj.symm
        have hr : r < h.length := (List.getElem?_eq_some_iff.mp hd).1
        have hne : h.length ≠ r := by omega
        have hpres : h'[r]? = h[r]? := by
          rw [hh, List.getElem?_set_ne hne, List.getElem?_append_left hr]
        exact ⟨hpres.trans hd, d, vs, rfl, hcv, hpres.trans hd⟩

/-- Witness for C10 at a concrete heap and saver. -/
theorem put_mut_no_mutation_witness :
    ∃ s' h' cfg',
      put_mut emptySaver [⟨"c1", [("x", "1")], some [("x", "a")], "rest"⟩] 0
          ⟨"t", some "", none, []⟩ [] [("x", "1")] = some (s', h', cfg') ∧
      h'[0]? = some (⟨"c1", [("x", "1")], some [("x", "a")], "rest"⟩ : PyCkpt) := by
  refine ⟨_, _, _, rfl, ?_⟩
  have := put_mut_no_mutation emptySaver
    [⟨"c1", [("x", "1")], some [("x", "a")], "rest"⟩] 0
    ⟨"t", some "", none, []⟩ [] [("x", "1")] _ _ _ rfl
  rw [this.1]
  rfl

/-! ### Lemmas: decimal formatting and parsing for get_next_version -/

theorem charVal_digitToChar {d : Nat} (h : d < 10) : charVal (digitToChar d) = d := by
  interval_cases d <;> decide

theorem isDigitCh_digitToChar {d : Nat} (h : d < 10) : isDigitCh (digitToChar d) = true := by
  interval_cases d <;> decide

theorem foldl_digit_chars (ds : List Nat) (hds : ∀ d ∈ ds, d < 10) (a : Nat) :
    (ds.map digitToChar).foldl (fun a c => 10 * a + charVal c) a
      = ds.foldl (fun a d => 10 * a + d) a := by
  induction ds generalizing a with
  | nil => rfl
  | cons d rest ih =>
    simp only [List.map_cons, List.foldl_cons]
    rw [charVal_digitToChar (hds d (by simp))]
    exact ih (fun x hx => hds x (by simp [hx])) _

theorem foldl_horner (ds : List Nat) (a : Nat) :
    ds.foldl (fun a d => 10 * a + d) a
      = a * 10 ^ ds.length + Nat.ofDigits 10 ds.reverse := by
  induction ds generalizing a with
  | nil => simp [Nat.ofDigits]
  | cons d rest ih =>
    simp only [List.foldl_cons, List.reverse_cons, List.length_cons]
    rw [ih, Nat.ofDigits_append]
    simp only [Nat.ofDigits_singleton, List.length_reverse]
    ring

theorem natToChars_all_digits (n : Nat) : ∀ c ∈ natToChars n, isDigitCh c = true := by
  unfold natToChars
  split
  · intro c hc
    simp only [List.mem_singleton] at hc
    subst hc
    decide
  · intro c hc
    simp only [List.mem_map] at hc
    obtain ⟨d, hd, rfl⟩ := hc
    exact isDigitCh_digitToChar (Nat.digits_lt_base (by norm_num) (by simpa using hd))

theorem natToChars_ne_nil (n : Nat) : natToChars n ≠ [] := by
  unfold natToChars
  split
  · simp
  · simp only [ne_eq, List.map_eq_nil_iff, List.reverse_eq_nil_iff]
    rw [Nat.digits_eq_nil_iff_eq_zero]
    assumption

theorem foldl_zeros (m : Nat) :
    (List.replicate m '0').foldl (fun a c => 10 * a + charVal c) 0 = 0 := by
  induction m with
  | zero => rfl
  | succ k ih =>
    rw [List.replicate_succ, List.foldl_cons]
    have h0 : 10 * 0 + charVal '0' = 0 := by decide
    rw [h0]
    exact ih

theorem charsToNat?_natToChars (n : Nat) : charsToNat? (natToChars n) = some n := by
  by_cases h0 : n = 0
  · subst h0; decide
  · have hne : (natToChars n).isEmpty = false := by
      simpa [List.isEmpty_iff] using natToChars_ne_nil n
    have hall : (natToChars n).all isDigitCh = true :=
      List.all_eq_true.mpr (natToChars_all_digits n)
    unfold charsToNat?
    rw [hne]
    simp only [Bool.false_eq_true, if_false, hall, if_pos trivial]
    congr 1
    conv =>
      lhs
      rw [natToChars, if_neg h0]
    rw [foldl_digit_chars _ (fun d hd => Nat.digits_lt_base (by norm_num) (by simpa using hd))]
    rw [foldl_horner]
    simp [Nat.ofDigits_digits]

theorem charsToNat?_pad (m : Nat) (cs : List Char) (hne : cs ≠ [])
    (hall : ∀ c ∈ cs, isDigitCh c = true) :
    charsToNat? (List.replicate m '0' ++ cs) = charsToNat? cs := by
  have h1 : (List.replicate m '0' ++ cs).isEmpty = false := by
    simp [List.isEmpty_iff, hne]
  have h2 : cs.isEmpty = false := by simp [List.isEmpty_iff, hne]
  have hall2 : (List.replicate m '0' ++ cs).all isDigitCh = true := by
    rw [List.all_append, Bool.and_eq_true]
    refine ⟨?_, List.all_eq_true.mpr hall⟩
    rw [List.all_eq_true]
    intro c hc
    rw [List.eq_of_mem_replicate hc]
    decide
  unfold charsToNat?
  rw [h1, h2]
  simp only [Bool.false_eq_true, if_false, hall2, List.all_eq_true.mpr hall, if_pos trivial]
  congr 1
  rw [List.foldl_append, foldl_zeros]

theorem takeWhile_append_of_all {p : Char → Bool} (l1 l2 : List Char) (c : Char)
    (h1 : ∀ x ∈ l1, p x = true) (hc : p c = false) :
    (l1 ++ c :: l2).takeWhile p = l1 := by
  induction l1 with
  | nil => simp [List.takeWhile_cons, hc]
  | cons x xs ih =>
    simp only [List.cons_append, List.takeWhile_cons, h1 x (by simp), if_pos trivial]
    rw [ih (fun y hy => h1 y (by simp [hy]))]

theorem charsToInt?_of_digits (cs : List Char) (hall : ∀ c ∈ cs, isDigitCh c = true) :
    charsToInt? cs = (charsToNat? cs).map (fun n => (n : Int)) := by
  unfold charsToInt?
  cases cs with
  | nil => rfl
  | cons c rest =>
    have hc : isDigitCh c = true := hall c (by simp)
    have : ¬ ((c :: rest).head? = some '-') := by
      simp only [List.head?_cons, Option.some_inj]
      intro hh
      rw [hh] at hc
      simp [isDigitCh] at hc
    rw [if_neg this]

theorem versionIntPart_formatVersion (v : Int) (rand : String) :
    versionIntPart (formatVersion v rand) = some v := by
  unfold versionIntPart formatVersion
  have hdata : (String.mk (zfillChars (intToChars v) 32 ++ '.' :: rand.data)).data
      = zfillChars (intToChars v) 32 ++ '.' :: rand.data := rfl
  rw [hdata]
  have hdot : (fun c => !(c == '.')) '.' = false := by decide
  have hdigit_ne_dot : ∀ c, isDigitCh c = true → (fun c => !(c == '.')) c = true := by
    intro c hc
    simp only [Bool.not_eq_true', beq_eq_false_iff_ne, ne_eq]
    intro hh
    rw [hh] at hc
    simp [isDigitCh] at hc
  by_cases hv : v < 0
  · have hic : intToChars v = '-' :: natToChars v.natAbs := by
      unfold intToChars
      rw [if_pos hv]
    have hz : zfillChars (intToChars v) 32
        = '-' :: (List.replicate (31 - (natToChars v.natAbs).length) '0' ++ natToChars v.natAbs) := by
      rw [hic]
      unfold zfillChars
      rw [if_pos (by simp)]
      rfl
    rw [hz]
    have hall : ∀ x ∈ ('-' :: (List.replicate (31 - (natToChars v.natAbs).length) '0'
        ++ natToChars v.natAbs)), (fun c => !(c == '.')) x = true := by
      intro x hx
      simp only [List.mem_cons, List.mem_append] at hx
      rcases hx with h | h | h
      · subst h; decide
      · rw [List.eq_of_mem_replicate h]; decide
      · exact hdigit_ne_dot x (natToChars_all_digits _ x h)
    rw [show ('-' :: (List.replicate (31 - (natToChars v.natAbs).length) '0'
          ++ natToChars v.natAbs)) ++ '.' :: rand.data
        = ('-' :: (List.replicate (31 - (natToChars v.natAbs).length) '0'
          ++ natToChars v.natAbs)) ++ '.' :: rand.data from rfl]
    rw [takeWhile_append_of_all _ _ _ hall hdot]
    unfold charsToInt?
    rw [if_pos (by simp)]
    simp only [List.tail_cons]
    rw [charsToNat?_pad _ _ (natToChars_ne_nil _) (natToChars_all_digits _)]
    rw [charsToNat?_natToChars]
    have hval : -((v.natAbs : Nat) : Int) = v := by omega
    rw [Option.map_eq_some']
    exact ⟨v.natAbs, rfl, hval⟩
  · have hic : intToChars v = natToChars v.toNat := by
      unfold intToChars
      rw [if_neg hv]
    have hz : zfillChars (intToChars v) 32
        = List.replicate (32 - (natToChars v.toNat).length) '0' ++ natToChars v.toNat := by
      rw [hic]
      unfold zfillChars
      have : ¬ ((natToChars v.toNat).head? = some '-') := by
        cases hcs : natToChars v.toNat with
        | nil => simp
        | cons c rest =>
          simp only [List.head?_cons, Option.some_inj]
          intro hh
          have hc := natToChars_all_digits v.toNat c (by rw [hcs]; simp)
          rw [hh] at hc
          simp [isDigitCh] at hc
      rw [if_neg this]
    rw [hz]
    have hall : ∀ x ∈ (List.replicate (32 - (natToChars v.toNat).length) '0'
        ++ natToChars v.toNat), (fun c => !(c == '.')) x = true := by
      intro x hx
      simp only [List.mem_append] at hx
      rcases hx with h | h
      · rw [List.eq_of_mem_replicate h]; decide
      · exact hdigit_ne_dot x (natToChars_all_digits _ x h)
    rw [takeWhile_append_of_all _ _ _ hall hdot]
    rw [charsToInt?_of_digits _ (by
      intro c hc
      simp only [List.mem_append] at hc
      rcases hc with h | h
      · rw [List.eq_of_mem_replicate h]; decide
      · exact natToChars_all_digits _ c h)]
    rw [charsToNat?_pad _ _ (natToChars_ne_nil _) (natToChars_all_digits _)]
    rw [charsToNat?_natToChars]
    have hval : ((v.toNat : Nat) : Int) = v := by omega
    rw [Option.map_eq_some']
    exact ⟨v.toNat, rfl, hval⟩

theorem get_next_version_ok (cur : Option (Sum String Int)) (n : Int) (r : String)
    (h : currentIntOf cur = some n) :
    get_next_version cur r = Except.ok (formatVersion (n + 1) r) := by
  cases cur with
  | none =>
    simp only [currentIntOf, Option.some_inj] at h
    subst h
    rfl
  | some sv =>
    cases sv with
    | inl s =>
      simp only [currentIntOf] at h
      simp only [get_next_version, h]
    | inr i =>
      simp only [currentIntOf, Option.some_inj] at h
      subst h
      rfl

theorem formatVersion_rand_inj (v : Int) (r1 r2 : String)
    (h : formatVersion v r1 = formatVersion v r2) : r1 = r2 := by
  unfold formatVersion at h
  have hdata := congrArg String.data h
  simp only at hdata
  have := List.append_cancel_left hdata
  rw [List.cons.injEq] at this
  cases r1 with
  | mk d1 =>
    cases r2 with
    | mk d2 => exact congrArg String.mk this.2

/-! ### Claim C7: version generation -/

/-- C7: when the current version parses to integer `n` (a bare integer, the
integer part of a version string, or `0` for absence), `get_next_version`
returns a version whose integer part (as the code itself parses it) is
`n + 1`; two versions generated from the same current share that integer part
yet differ whenever their random components differ; and versions generated
from any two parseable currents compare by integer part exactly as the
current integers compare. -/
theorem get_next_version_spec (cur : Option (Sum String Int)) (n : Int) (r : String)
    (h : currentIntOf cur = some n) :
    ∃ out, get_next_version cur r = Except.ok out ∧
      versionIntPart out = some (n + 1) ∧
      (∀ r2 out2, get_next_version cur r2 = Except.ok out2 →
        versionIntPart out2 = some (n + 1) ∧ (r ≠ r2 → out ≠ out2)) ∧
      (∀ cur2 n2 r3 out3, currentIntOf cur2 = some n2 →
        get_next_version cur2 r3 = Except.ok out3 →
        ∃ m3, versionIntPart out3 = some m3 ∧ (n + 1 < m3 ↔ n < n2)) := by
  refine ⟨formatVersion (n + 1) r, get_next_version_ok cur n r h, versionIntPart_formatVersion _ _, ?_, ?_⟩
  · intro r2 out2 h2
    rw [get_next_version_ok cur n r2 h] at h2
    have hout2 : out2 = formatVersion (n + 1) r2 := by
      injection h2 with hh
      exact hh.symm
    subst hout2
    refine ⟨versionIntPart_formatVersion _ _, ?_⟩
    intro hr hfe
    exact hr (formatVersion_rand_inj (n + 1) r r2 hfe)
  · intro cur2 n2 r3 out3 h3 h4
    rw [get_next_version_ok cur2 n2 r3 h3] at h4
    have hout3 : out3 = formatVersion (n2 + 1) r3 := by
      injection h4 with hh
      exact hh.symm
    subst hout3
    exact ⟨n2 + 1, versionIntPart_formatVersion _ _, by omega⟩

/-- Witness for C7 at the concrete current version `"3.25"`. -/
theorem get_next_version_spec_witness :
    currentIntOf (some (Sum.inl "3.25")) = some 3 ∧
    ∃ out, get_next_version (some (Sum.inl "3.25")) "071" = Except.ok out ∧
      versionIntPart out = some 4 ∧
      (∀ r2 out2, get_next_version (some (Sum.inl "3.25")) r2 = Except.ok out2 →
        versionIntPart out2 = some 4 ∧ ("071" ≠ r2 → out ≠ out2)) ∧
      (∀ cur2 n2 r3 out3, currentIntOf cur2 = some n2 →
        get_next_version cur2 r3 = Except.ok out3 →
        ∃ m3, versionIntPart out3 = some m3 ∧ (4 < m3 ↔ 3 < n2)) := by
  have h : currentIntOf (some (Sum.inl "3.25")) = some 3 := by decide
  have main := get_next_version_spec (some (Sum.inl "3.25")) 3 "071" h
  exact ⟨h, by
    obtain ⟨out, h1, h2, h3, h4⟩ := main
    exact ⟨out, h1, by simpa using h2, fun r2 out2 hh => by
      obtain ⟨ha, hb⟩ := h3 r2 out2 hh
      exact ⟨by simpa using ha, hb⟩, fun cur2 n2 r3 out3 ha hb => by
      obtain ⟨m3, hc, hd⟩ := h4 cur2 n2 r3 out3 ha hb
      exact ⟨m3, hc, by constructor <;> intro <;> omega⟩⟩⟩

/-! ### Claim C4: get resolution and not-found -/

/-- C4: with a truthy explicit checkpoint id, `get_tuple` returns exactly the
checkpoint stored under that id (or `none` when absent); without one, it
returns the checkpoint stored under the maximum id of the namespace (which is
a member of, and an upper bound of, the stored ids), or `none` when the
namespace is empty. Absence is an ordinary `none` result: `get_tuple` is a
total function. -/
theorem get_tuple_resolution (s : SaverState) (config : Config) :
    (getCheckpointId config ≠ "" →
      ∀ e, aget? (storGetNs s config.thread_id ((config.checkpoint_ns).getD ""))
          (getCheckpointId config) = some e →
        get_tuple s config = some
          { mkListTuple s config.thread_id ((config.checkpoint_ns).getD "")
              (getCheckpointId config) e with
            config := config }) ∧
    (getCheckpointId config ≠ "" →
      aget? (storGetNs s config.thread_id ((config.checkpoint_ns).getD ""))
          (getCheckpointId config) = none →
      get_tuple s config = none) ∧
    (getCheckpointId config = "" →
      storGetNs s config.thread_id ((config.checkpoint_ns).getD "") ≠ [] →
      ∃ e, aget? (storGetNs s config.thread_id ((config.checkpoint_ns).getD ""))
            (maxKey (storGetNs s config.thread_id ((config.checkpoint_ns).getD "")))
            = some e ∧
        get_tuple s config = some (mkListTuple s config.thread_id
          ((config.checkpoint_ns).getD "")
          (maxKey (storGetNs s config.thread_id ((config.checkpoint_ns).getD ""))) e) ∧
        maxKey (storGetNs s config.thread_id ((config.checkpoint_ns).getD ""))
          ∈ (storGetNs s config.thread_id ((config.checkpoint_ns).getD "")).map Prod.fst ∧
        (∀ k ∈ (storGetNs s config.thread_id ((config.checkpoint_ns).getD "")).map Prod.fst,
          strLt (maxKey (storGetNs s config.thread_id ((config.checkpoint_ns).getD ""))) k
            = false)) ∧
    (getCheckpointId config = "" →
      storGetNs s config.thread_id ((config.checkpoint_ns).getD "") = [] →
      get_tuple s config = none) := by
  refine ⟨?_, ?_, ?_, ?_⟩
  · intro hcid e he
    simp only [get_tuple]
    rw [if_pos hcid, he]
    rfl
  · intro hcid he
    simp only [get_tuple]
    rw [if_pos hcid, he]
  · intro hcid hne
    have hmem := maxKey_mem _ hne
    have hsome := aget?_isSome_of_mem hmem
    obtain ⟨e, he⟩ := Option.isSome_iff_exists.mp hsome
    refine ⟨e, he, ?_, hmem, maxKey_ge _⟩
    simp only [get_tuple]
    rw [if_neg (by simp [hcid]), if_neg hne, he]
  · intro hcid hemp
    simp only [get_tuple]
    rw [if_neg (by simp [hcid]), if_pos hemp]

/-- Witness for C4 on a two-checkpoint store. -/
theorem get_tuple_resolution_witness :
    (∃ tup, get_tuple
      ⟨[("t", [("", [("c1", (⟨"c1", [], "r"⟩, [], none)),
                     ("c2", (⟨"c2", [], "r"⟩, [], some "c1"))])])], [], []⟩
      ⟨"t", some "", some "c1", []⟩ = some tup) ∧
    get_tuple
      ⟨[("t", [("", [("c1", (⟨"c1", [], "r"⟩, [], none)),
                     ("c2", (⟨"c2", [], "r"⟩, [], some "c1"))])])], [], []⟩
      ⟨"t", some "", some "zz", []⟩ = none ∧
    (∃ tup, get_tuple
      ⟨[("t", [("", [("c1", (⟨"c1", [], "r"⟩, [], none)),
                     ("c2", (⟨"c2", [], "r"⟩, [], some "c1"))])])], [], []⟩
      ⟨"t", some "", none, []⟩ = some tup) := by
  refine ⟨?_, ?_, ?_⟩
  · have h1 := (get_tuple_resolution
      ⟨[("t", [("", [("c1", (⟨"c1", [], "r"⟩, [], none)),
                     ("c2", (⟨"c2", [], "r"⟩, [], some "c1"))])])], [], []⟩
      ⟨"t", some "", some "c1", []⟩).1 (by decide) (⟨"c1", [], "r"⟩, [], none) (by decide)
    exact ⟨_, h1⟩
  · exact (get_tuple_resolution
      ⟨[("t", [("", [("c1", (⟨"c1", [], "r"⟩, [], none)),
                     ("c2", (⟨"c2", [], "r"⟩, [], some "c1"))])])], [], []⟩
      ⟨"t", some "", some "zz", []⟩).2.1 (by decide) (by decide)
  · obtain ⟨e, hlook, heq, hmem, hge⟩ := (get_tuple_resolution
      ⟨[("t", [("", [("c1", (⟨"c1", [], "r"⟩, [], none)),
                     ("c2", (⟨"c2", [], "r"⟩, [], some "c1"))])])], [], []⟩
      ⟨"t", some "", none, []⟩).2.2.1 (by decide) (by decide)
    exact ⟨_, heq⟩

/-! ### Lemmas: blob fan-out and reconstruction (for the round-trip) -/

theorem blobFold_preserve (t ns : String) (V : List (String × Value))
    (rest : List (String × String)) (k v : String) (hk : k ∉ rest.map Prod.fst)
    (b : List (BKey × Serialized)) :
    aget? (rest.foldl (fun b kv => ainsert b (t, ns, kv.1, kv.2)
        (match aget? V kv.1 with | some x => dumpsVal x | none => ("empty", ""))) b)
      (t, ns, k, v) = aget? b (t, ns, k, v) := by
  induction rest generalizing b with
  | nil => rfl
  | cons kv0 rest ih =>
    simp only [List.map_cons, List.mem_cons, not_or] at hk
    simp only [List.foldl_cons]
    rw [ih hk.2]
    apply aget?_ainsert_ne
    intro heq
    injection heq with h1 h2
    injection h2 with h3 h4
    injection h4 with h5 h6
    exact hk.1 h5

theorem blobFold_lookup (t ns : String) (V : List (String × Value))
    (nv : List (String × String)) (hnd : (nv.map Prod.fst).Nodup)
    (kv : String × String) (hmem : kv ∈ nv) (b : List (BKey × Serialized)) :
    aget? (nv.foldl (fun b kv => ainsert b (t, ns, kv.1, kv.2)
        (match aget? V kv.1 with | some x => dumpsVal x | none => ("empty", ""))) b)
      (t, ns, kv.1, kv.2)
      = some (match aget? V kv.1 with | some x => dumpsVal x | none => ("empty", "")) := by
  induction nv generalizing b with
  | nil => simp at hmem
  | cons kv0 rest ih =>
    simp only [List.map_cons, List.nodup_cons] at hnd
    simp only [List.foldl_cons]
    rcases List.mem_cons.mp hmem with h | h
    · subst h
      rw [blobFold_preserve t ns V rest kv.1 kv.2 hnd.1]
      exact aget?_ainsert_self _ _ _
    · exact ih hnd.2 h _

theorem load_blobs_fold_general (s' : SaverState) (t ns : String) (V : List (String × Value))
    (nv : List (String × String))
    (hblob : ∀ kv ∈ nv, aget? s'.blobs (t, ns, kv.1, kv.2)
      = some (match aget? V kv.1 with | some x => dumpsVal x | none => ("empty", ""))) :
    ∀ acc, nv.foldl (fun acc kv =>
        match aget? s'.blobs (t, ns, kv.1, kv.2) with
        | some vv => if vv.1 ≠ "empty" then acc ++ [(kv.1, loadsVal vv)] else acc
        | none => acc) acc
      = nv.foldl (fun acc kv =>
        match aget? V kv.1 with
        | some x => acc ++ [(kv.1, x)]
        | none => acc) acc := by
  induction nv with
  | nil => intro acc; rfl
  | cons kv rest ih =>
    intro acc
    simp only [List.foldl_cons]
    rw [hblob kv (by simp)]
    cases hV : aget? V kv.1 with
    | some x =>
      simp only [hV, dumpsVal, loadsVal, ne_eq]
      rw [if_pos (by decide)]
      exact ih (fun z hz => hblob z (by simp [hz])) _
    | none =>
      simp only [hV, ne_eq]
      rw [if_neg (by decide)]
      exact ih (fun z hz => hblob z (by simp [hz])) _

theorem collect_acc (V : List (String × Value)) (nv : List (String × String)) :
    ∀ acc, nv.foldl (fun acc kv =>
        match aget? V kv.1 with
        | some x => acc ++ [(kv.1, x)]
        | none => acc) acc
      = acc ++ nv.foldl (fun acc kv =>
        match aget? V kv.1 with
        | some x => acc ++ [(kv.1, x)]
        | none => acc) [] := by
  induction nv with
  | nil => intro acc; simp
  | cons kv rest ih =>
    intro acc
    simp only [List.foldl_cons]
    cases hV : aget? V kv.1 with
    | some x =>
      simp only [hV]
      rw [ih (acc ++ [(kv.1, x)]), ih ([] ++ [(kv.1, x)])]
      simp
    | none => simp only [hV]; exact ih acc

theorem aget?_append_some {K V : Type} [DecidableEq K] {l1 l2 : List (K × V)} {k : K}
    {v : V} (h : aget? l1 k = some v) : aget? (l1 ++ l2) k = some v := by
  rw [aget?_append, h]

theorem aget?_append_none {K V : Type} [DecidableEq K] {l1 l2 : List (K × V)} {k : K}
    (h : aget? l1 k = none) : aget? (l1 ++ l2) k = aget? l2 k := by
  rw [aget?_append, h]

theorem aget?_collect (V : List (String × Value)) (nv : List (String × String))
    (hnd : (nv.map Prod.fst).Nodup) (x : String) :
    aget? (nv.foldl (fun acc kv =>
        match aget? V kv.1 with
        | some xv => acc ++ [(kv.1, xv)]
        | none => acc) []) x
      = if x ∈ nv.map Prod.fst then aget? V x else none := by
  induction nv with
  | nil => simp [aget?]
  | cons kv rest ih =>
    simp only [List.map_cons, List.nodup_cons] at hnd
    simp only [List.foldl_cons, List.nil_append]
    cases hV : aget? V kv.1 with
    | some xv =>
      simp only [hV]
      rw [collect_acc]
      by_cases hx : x = kv.1
      · have h1 : aget? [(kv.1, xv)] x = some xv := by
          rw [aget?_cons, if_pos hx.symm]
        rw [aget?_append_some h1]
        have hmem2 : x ∈ List.map Prod.fst (kv :: rest) := by simp [hx]
        rw [if_pos hmem2, hx, hV]
      · have h1 : aget? [(kv.1, xv)] x = none := by
          rw [aget?_cons, if_neg (fun hh => hx hh.symm)]
          rfl
        rw [aget?_append_none h1, ih hnd.2]
        simp only [List.map_cons, List.mem_cons]
        by_cases hmem : x ∈ rest.map Prod.fst
        · rw [if_pos hmem, if_pos (Or.inr hmem)]
        · rw [if_neg hmem, if_neg (by rintro (h | h); exact hx h; exact hmem h)]
    | none =>
      simp only [hV]
      rw [ih hnd.2]
      simp only [List.map_cons, List.mem_cons]
      by_cases hmem : x ∈ rest.map Prod.fst
      · rw [if_pos hmem, if_pos (Or.inr hmem)]
      · rw [if_neg hmem]
        by_cases hx : x = kv.1
        · rw [if_pos (Or.inl hx), hx, hV]
        · rw [if_neg (by rintro (h | h); exact hx h; exact hmem h)]

/-! ### Claim C1: put/get round-trip on channel values -/

/-- C1: committing a checkpoint whose channel-versions map is the supplied
new-versions map (with distinct channels covering every channel present in the
channel-values map `V`), then reading it back at the exact address returned by
`put`, reconstructs a channel-values map extensionally equal to `V`: channels
recorded with the `"empty"` sentinel (versioned but absent from `V`) are
omitted. -/
theorem put_get_roundtrip (s : SaverState) (config : Config) (ckpt : Checkpoint)
    (md : Metadata) (nv : List (String × String)) (ns : String)
    (hns : config.checkpoint_ns = some ns)
    (hid : ckpt.id ≠ "")
    (hvers : ckpt.channel_versions = nv)
    (hnd : (nv.map Prod.fst).Nodup)
    (hcov : ∀ k, (aget? ckpt.channel_values k).isSome = true → k ∈ nv.map Prod.fst) :
    ∃ s' config' tup,
      put s config ckpt md nv = some (s', config') ∧
      get_tuple s' config' = some tup ∧
      (∀ k, aget? tup.checkpoint.channel_values k = aget? ckpt.channel_values k) := by
  have hput : put s config ckpt md nv = some
      (putCore s config.thread_id ns
        ⟨ckpt.id, ckpt.channel_versions, ckpt.rest⟩ ckpt.channel_values nv
        (getCheckpointMetadata config md) config.checkpoint_id,
      ⟨config.thread_id, some ns, some ckpt.id, []⟩) := by
    simp only [put, hns]
  set core : CoreCheckpoint := ⟨ckpt.id, ckpt.channel_versions, ckpt.rest⟩ with hcore
  set s' : SaverState := putCore s config.thread_id ns core ckpt.channel_values nv
    (getCheckpointMetadata config md) config.checkpoint_id with hs'
  set config' : Config := ⟨config.thread_id, some ns, some ckpt.id, []⟩ with hconfig'
  have hstor : storGetNs s' config.thread_id ns
      = ainsert (storGetNs s config.thread_id ns) ckpt.id
          (core, getCheckpointMetadata config md, config.checkpoint_id) := by
    rw [hs']
    unfold putCore storGetNs storGetT
    simp only
    rw [aget?_ainsert_self]
    simp only [Option.getD_some]
    rw [aget?_ainsert_self]
    simp only [Option.getD_some]
  have hlook : aget? (storGetNs s' config.thread_id ns) ckpt.id
      = some (core, getCheckpointMetadata config md, config.checkpoint_id) := by
    rw [hstor]
    exact aget?_ainsert_self _ _ _
  have hblob : ∀ kv ∈ nv, aget? s'.blobs (config.thread_id, ns, kv.1, kv.2)
      = some (match aget? ckpt.channel_values kv.1 with
              | some x => dumpsVal x
              | none => ("empty", "")) := by
    intro kv hkv
    rw [hs']
    unfold putCore
    simp only
    exact blobFold_lookup config.thread_id ns ckpt.channel_values nv hnd kv hkv s.blobs
  have hload : load_blobs s' config.thread_id ns nv
      = nv.foldl (fun acc kv =>
          match aget? ckpt.channel_values kv.1 with
          | some x => acc ++ [(kv.1, x)]
          | none => acc) [] := by
    unfold load_blobs
    exact load_blobs_fold_general s' config.thread_id ns ckpt.channel_values nv hblob []
  have hget : get_tuple s' config' = some
      { config := config',
        checkpoint := { core := core,
                        channel_values := load_blobs s' config.thread_id ns
                          core.channel_versions },
        metadata := getCheckpointMetadata config md,
        parent_config := parentConfig config.thread_id ns config.checkpoint_id,
        pending_writes := pendingOf (wget s' (config.thread_id, ns, ckpt.id)) } := by
    have hcid : getCheckpointId config' = ckpt.id := rfl
    have hns' : (config'.checkpoint_ns).getD "" = ns := rfl
    simp only [get_tuple, hcid, hns']
    rw [if_pos hid]
    have : config'.thread_id = config.thread_id := rfl
    rw [this, hlook]
  refine ⟨s', config', _, hput, hget, ?_⟩
  intro k
  simp only
  rw [hvers, hload, aget?_collect _ _ hnd]
  by_cases hk : k ∈ nv.map Prod.fst
  · rw [if_pos hk]
  · rw [if_neg hk]
    cases hVk : aget? ckpt.channel_values k with
    | none => rfl
    | some x =>
      exfalso
      exact hk (hcov k (by rw [hVk]; rfl))

/-- Witness for C1: a checkpoint with one present channel and one
sentinel-marked channel round-trips to exactly the present channel. -/
theorem put_get_roundtrip_witness :
    ∃ s' config' tup,
      put emptySaver ⟨"t", some "", none, []⟩
        ⟨"c1", [("x", "v1"), ("y", "v2")], [("x", "a")], "rest"⟩ []
        [("x", "v1"), ("y", "v2")] = some (s', config') ∧
      get_tuple s' config' = some tup ∧
      (∀ k, aget? tup.checkpoint.channel_values k
        = aget? ([("x", "a")] : List (String × Value)) k) :=
  put_get_roundtrip emptySaver ⟨"t", some "", none, []⟩
    ⟨"c1", [("x", "v1"), ("y", "v2")], [("x", "a")], "rest"⟩ []
    [("x", "v1"), ("y", "v2")] "" rfl (by decide) rfl (by decide)
    (by
      intro k hk
      rw [aget?_cons] at hk
      by_cases hx : ("x", ("a" : Value)).1 = k
      · simp only [List.map_cons, List.mem_cons]
        exact Or.inl hx.symm
      · rw [if_neg hx] at hk
        simp [aget?] at hk)

/-! ### Lemmas: the put_writes loop -/

theorem aget?_eq_some_mem {K V : Type} [DecidableEq K] {d : List (K × V)} {k : K} {v : V}
    (h : aget? d k = some v) : (k, v) ∈ d := by
  induction d with
  | nil => simp [aget?] at h
  | cons p rest ih =>
    rw [aget?_cons] at h
    by_cases hp : p.1 = k
    · rw [if_pos hp, Option.some_inj] at h
      have : (k, v) = p := by rw [← hp, ← h]
      rw [List.mem_cons]
      exact Or.inl this
    · rw [if_neg hp] at h
      exact List.mem_cons_of_mem _ (ih h)

theorem putWritesLoop_preserve (idxMap : List (String × Int)) (ex : Bool) (outer : WKey)
    (tid tp : String) (K : String × Int)
    (hneg : ∀ kv ∈ idxMap, kv.2 < 0) (hK : 0 ≤ K.2) :
    ∀ (ws : List (String × Value)) (idx0 : Nat)
      (w : List (WKey × List ((String × Int) × WriteEntry))),
      K.2 < (idx0 : Int) →
      aget? ((aget? (putWritesLoop idxMap ex outer tid tp idx0 ws w) outer).getD []) K
        = aget? ((aget? w outer).getD []) K := by
  intro ws
  induction ws with
  | nil => intro idx0 w hlt; rfl
  | cons cv rest ih =>
    intro idx0 w hlt
    obtain ⟨c, v⟩ := cv
    simp only [putWritesLoop]
    have hwi : (aget? idxMap c).getD ((idx0 : Int)) < 0 ∨
        (aget? idxMap c).getD ((idx0 : Int)) = (idx0 : Int) := by
      cases hm : aget? idxMap c with
      | none => right; rfl
      | some j =>
        left
        exact hneg (c, j) (aget?_eq_some_mem hm)
    have hkey : (tid, (aget? idxMap c).getD ((idx0 : Int))) ≠ K := by
      intro heq
      have h2 : (aget? idxMap c).getD ((idx0 : Int)) = K.2 := by rw [← heq]
      rcases hwi with h | h <;> omega
    split
    · exact (ih (idx0 + 1) w (by omega)).trans rfl
    · rw [ih (idx0 + 1) _ (by omega)]
      rw [aget?_ainsert_self]
      simp only [Option.getD_some]
      rw [aget?_ainsert_ne _ _ _ _ (fun hh => hkey hh.symm)]

theorem putWritesLoop_write (idxMap : List (String × Int)) (ex : Bool) (outer : WKey)
    (tid tp : String) (hneg : ∀ kv ∈ idxMap, kv.2 < 0) :
    ∀ (ws : List (String × Value)) (idx0 j : Nat)
      (w : List (WKey × List ((String × Int) × WriteEntry))) (c : String) (v : Value),
      ws[j]? = some (c, v) →
      aget? idxMap c = none →
      (∀ l, aget? w outer = some l → aget? l (tid, ((idx0 + j : Nat) : Int)) = none) →
      aget? ((aget? (putWritesLoop idxMap ex outer tid tp idx0 ws w) outer).getD [])
          (tid, ((idx0 + j : Nat) : Int))
        = some (tid, c, dumpsVal v, tp) := by
  intro ws
  induction ws with
  | nil => intro idx0 j w c v hj; simp at hj
  | cons cv rest ih =>
    intro idx0 j w c v hj hc hnotin
    obtain ⟨c0, v0⟩ := cv
    cases j with
    | zero =>
      rw [List.getElem?_cons_zero, Option.some_inj] at hj
      have hc0 : c0 = c := congrArg Prod.fst hj
      have hv0 : v0 = v := congrArg Prod.snd hj
      rw [← hc0, ← hv0]
      simp only [putWritesLoop]
      have hcnone : aget? idxMap c0 = none := by rw [hc0]; exact hc
      have hwi : (aget? idxMap c0).getD ((idx0 : Int)) = (idx0 : Int) := by
        rw [hcnone]; rfl
      have hinner : aget? ((aget? w outer).getD []) (tid, (idx0 : Int)) = none := by
        cases hw : aget? w outer with
        | none => rfl
        | some l =>
          have := hnotin l hw
          rw [Nat.add_zero] at this
          exact this
      have hcond : (decide (0 ≤ (aget? idxMap c0).getD ((idx0 : Int))) && ex &&
          (aget? ((aget? w outer).getD [])
            (tid, (aget? idxMap c0).getD ((idx0 : Int)))).isSome) = false := by
        rw [hwi, hinner]
        simp
      rw [if_neg (by rw [hcond]; exact Bool.false_ne_true)]
      rw [Nat.add_zero]
      rw [putWritesLoop_preserve idxMap ex outer tid tp _ hneg (by simp) rest (idx0 + 1) _
        (by omega)]
      rw [hwi, aget?_ainsert_self]
      simp only [Option.getD_some]
      exact aget?_ainsert_self _ _ _
    | succ j' =>
      rw [List.getElem?_cons_succ] at hj
      have harith : idx0 + (j' + 1) = (idx0 + 1) + j' := by omega
      rw [harith] at hnotin ⊢
      simp only [putWritesLoop]
      have hwi0 : (aget? idxMap c0).getD ((idx0 : Int)) < 0 ∨
          (aget? idxMap c0).getD ((idx0 : Int)) = (idx0 : Int) := by
        cases hm : aget? idxMap c0 with
        | none => right; rfl
        | some jj =>
          left
          exact hneg (c0, jj) (aget?_eq_some_mem hm)
      have hkey : (tid, (aget? idxMap c0).getD ((idx0 : Int)))
          ≠ (tid, (((idx0 + 1) + j' : Nat) : Int)) := by
        intro heq
        have h2 : (aget? idxMap c0).getD ((idx0 : Int)) = (((idx0 + 1) + j' : Nat) : Int) := by
          have := congrArg Prod.snd heq
          simpa using this
        rcases hwi0 with h | h <;> omega
      split
      · exact ih (idx0 + 1) j' w c v hj hc hnotin
      · refine ih (idx0 + 1) j' _ c v hj hc ?_
        intro l hl
        rw [aget?_ainsert_self, Option.some_inj] at hl
        subst hl
        rw [aget?_ainsert_ne _ _ _ _ (fun hh => hkey hh.symm)]
        cases hw : aget? w outer with
        | none => rfl
        | some l0 => exact hnotin l0 hw

theorem putWritesLoop_skip (idxMap : List (String × Int)) (outer : WKey)
    (tid tp : String) (K : String × Int) (e : WriteEntry)
    (hK : 0 ≤ K.2) :
    ∀ (ws : List (String × Value)) (idx0 : Nat)
      (w : List (WKey × List ((String × Int) × WriteEntry))),
      aget? ((aget? w outer).getD []) K = some e →
      aget? ((aget? (putWritesLoop idxMap true outer tid tp idx0 ws w) outer).getD []) K
        = some e := by
  intro ws
  induction ws with
  | nil => intro idx0 w h; exact h
  | cons cv rest ih =>
    intro idx0 w h
    obtain ⟨c, v⟩ := cv
    simp only [putWritesLoop]
    split
    · exact ih (idx0 + 1) w h
    · rename_i hcond
      have hkey : (tid, (aget? idxMap c).getD ((idx0 : Int))) ≠ K := by
        intro heq
        apply hcond
        have h2 : (aget? idxMap c).getD ((idx0 : Int)) = K.2 := by
          have := congrArg Prod.snd heq
          simpa using this
        rw [heq, h, h2]
        simp [hK]
      refine ih (idx0 + 1) _ ?_
      rw [aget?_ainsert_self]
      simp only [Option.getD_some]
      rw [aget?_ainsert_ne _ _ _ _ (fun hh => hkey hh.symm)]
      exact h

/-! ### Claim C3: first-write-wins for ordinal write indices -/

/-- C3: for a channel outside the reserved fixed-negative-index mapping, two
`put_writes` calls with the same task id targeting the same ordinal index on
the same checkpoint retain only the first call's value: the duplicate write is
silently dropped and both calls succeed (no error). -/
theorem put_writes_first_write_wins (idxMap : List (String × Int)) (s : SaverState)
    (config : Config) (cid : String) (ws1 ws2 : List (String × Value))
    (task_id task_path1 task_path2 : String) (i : Nat) (c1 c2 : String) (v1 v2 : Value)
    (hcid : config.checkpoint_id = some cid)
    (hneg : ∀ kv ∈ idxMap, kv.2 < 0)
    (hc1 : aget? idxMap c1 = none)
    (_hc2 : aget? idxMap c2 = none)
    (hw1 : ws1[i]? = some (c1, v1))
    (_hw2 : ws2[i]? = some (c2, v2))
    (hfresh : aget? (wget s (config.thread_id, (config.checkpoint_ns).getD "", cid))
      (task_id, (i : Int)) = none) :
    ∃ s1 s2,
      put_writes idxMap s config ws1 task_id task_path1 = some s1 ∧
      put_writes idxMap s1 config ws2 task_id task_path2 = some s2 ∧
      aget? (wget s2 (config.thread_id, (config.checkpoint_ns).getD "", cid))
          (task_id, (i : Int)) = some (task_id, c1, dumpsVal v1, task_path1) := by
  set outer : WKey := (config.thread_id, (config.checkpoint_ns).getD "", cid) with houter
  have hput1 : put_writes idxMap s config ws1 task_id task_path1 = some
      { s with writes := (putWritesLoop idxMap (aget? s.writes outer).isSome outer
          task_id task_path1 0 ws1 s.writes) } := by
    simp only [put_writes, hcid]
  set s1 : SaverState := { s with writes := (putWritesLoop idxMap
      (aget? s.writes outer).isSome outer task_id task_path1 0 ws1 s.writes) } with hs1
  have h1 : aget? ((aget? s1.writes outer).getD []) (task_id, (i : Int))
      = some (task_id, c1, dumpsVal v1, task_path1) := by
    rw [hs1]
    have := putWritesLoop_write idxMap (aget? s.writes outer).isSome outer task_id task_path1
      hneg ws1 0 i s.writes c1 v1 hw1 hc1 (fun l hl => by
        have hfr := hfresh
        unfold wget at hfr
        rw [hl] at hfr
        simpa using hfr)
    simpa using this
  have hex : (aget? s1.writes outer).isSome = true := by
    cases hw : aget? s1.writes outer with
    | none => rw [hw] at h1; simp [aget?] at h1
    | some l => rfl
  have hput2 : put_writes idxMap s1 config ws2 task_id task_path2 = some
      { s1 with writes := (putWritesLoop idxMap true outer task_id task_path2
          0 ws2 s1.writes) } := by
    simp only [put_writes, hcid, ← houter, hex]
  refine ⟨s1, _, hput1, hput2, ?_⟩
  have h2 := putWritesLoop_skip idxMap outer task_id task_path2 (task_id, (i : Int))
    (task_id, c1, dumpsVal v1, task_path1) (by simp) ws2 0 s1.writes h1
  unfold wget
  exact h2

/-- Witness for C3: two single-element `put_writes` calls at ordinal index 0
for the same task retain only the first value. -/
theorem put_writes_first_write_wins_witness :
    ∃ s1 s2,
      put_writes [("__error__", -1)] emptySaver ⟨"t", some "", some "c1", []⟩
        [("ch", "a")] "t1" "" = some s1 ∧
      put_writes [("__error__", -1)] s1 ⟨"t", some "", some "c1", []⟩
        [("ch", "b")] "t1" "" = some s2 ∧
      aget? (wget s2 ("t", "", "c1")) ("t1", (0 : Int))
        = some ("t1", "ch", dumpsVal "a", "") := by
  have := put_writes_first_write_wins [("__error__", -1)] emptySaver
    ⟨"t", some "", some "c1", []⟩ "c1" [("ch", "a")] [("ch", "b")] "t1" "" "" 0
    "ch" "ch" "a" "b" rfl (by decide) (by decide) (by decide) (by decide) (by decide)
    (by decide)
  simpa using this

/-! ### Lemmas: the list loops -/

theorem listItems_mem (s : SaverState) (t ns : String) (ccid bcid : Option String)
    (filt : Option Metadata) :
    ∀ (items : List (String × StorEntry)) (lim : Option Int) (tup : CheckpointTuple),
      tup ∈ (listItems s t ns ccid bcid filt items lim).1 →
      ∃ cid e, (cid, e) ∈ items ∧ tup = mkListTuple s t ns cid e ∧
        (∀ b, bcid = some b → strLt cid b = true) := by
  intro items
  induction items with
  | nil => intro lim tup h; simp [listItems] at h
  | cons ce rest ih =>
    intro lim tup h
    obtain ⟨cid0, e0⟩ := ce
    simp only [listItems] at h
    split at h
    · obtain ⟨cid, e, hm, ht, hb⟩ := ih lim tup h
      exact ⟨cid, e, List.mem_cons_of_mem _ hm, ht, hb⟩
    · split at h
      · obtain ⟨cid, e, hm, ht, hb⟩ := ih lim tup h
        exact ⟨cid, e, List.mem_cons_of_mem _ hm, ht, hb⟩
      · rename_i hbc
        have hbnd : ∀ b, bcid = some b → strLt cid0 b = true := by
          intro b hbb
          rw [hbb] at hbc
          simp only [Bool.not_eq_true] at hbc
          simpa using hbc
        split at h
        · obtain ⟨cid, e, hm, ht, hb⟩ := ih lim tup h
          exact ⟨cid, e, List.mem_cons_of_mem _ hm, ht, hb⟩
        · split at h
          · split at h
            · simp at h
            · rw [List.mem_cons] at h
              rcases h with h | h
              · exact ⟨cid0, e0, List.mem_cons_self _ _, h, hbnd⟩
              · obtain ⟨cid, e, hm, ht, hb⟩ := ih _ tup h
                exact ⟨cid, e, List.mem_cons_of_mem _ hm, ht, hb⟩
          · rw [List.mem_cons] at h
            rcases h with h | h
            · exact ⟨cid0, e0, List.mem_cons_self _ _, h, hbnd⟩
            · obtain ⟨cid, e, hm, ht, hb⟩ := ih _ tup h
              exact ⟨cid, e, List.mem_cons_of_mem _ hm, ht, hb⟩

theorem listNss_mem (s : SaverState) (t : String) (cns ccid bcid : Option String)
    (filt : Option Metadata) :
    ∀ (nss : List String) (lim : Option Int) (tup : CheckpointTuple),
      tup ∈ (listNss s t cns ccid bcid filt nss lim).1 →
      ∃ ns cid e, tup = mkListTuple s t ns cid e ∧
        (∀ b, bcid = some b → strLt cid b = true) := by
  intro nss
  induction nss with
  | nil => intro lim tup h; simp [listNss] at h
  | cons ns0 rest ih =>
    intro lim tup h
    simp only [listNss] at h
    split at h
    · exact ih lim tup h
    · rw [List.mem_append] at h
      rcases h with h | h
      · obtain ⟨cid, e, _, ht, hb⟩ := listItems_mem s t ns0 ccid bcid filt _ lim tup h
        exact ⟨ns0, cid, e, ht, hb⟩
      · exact ih _ tup h

theorem listThreads_mem (s : SaverState) (cns ccid bcid : Option String)
    (filt : Option Metadata) :
    ∀ (ts : List String) (lim : Option Int) (tup : CheckpointTuple),
      tup ∈ (listThreads s cns ccid bcid filt ts lim).1 →
      ∃ t, t ∈ ts ∧ ∃ ns cid e, tup = mkListTuple s t ns cid e ∧
        (∀ b, bcid = some b → strLt cid b = true) := by
  intro ts
  induction ts with
  | nil => intro lim tup h; simp [listThreads] at h
  | cons t0 rest ih =>
    intro lim tup h
    simp only [listThreads] at h
    rw [List.mem_append] at h
    rcases h with h | h
    · obtain ⟨ns, cid, e, ht, hb⟩ := listNss_mem s t0 cns ccid bcid filt _ _ tup h
      exact ⟨t0, List.mem_cons_self _ _, ns, cid, e, ht, hb⟩
    · obtain ⟨t, hm, rest'⟩ := ih _ tup h
      exact ⟨t, List.mem_cons_of_mem _ hm, rest'⟩

/-! ### Claim C6: strict pagination boundary -/

/-- C6: whenever `list` is called with a truthy `before` cursor `X`, every
yielded checkpoint's id is strictly below `X` in the string order, across all
threads and namespaces scanned. -/
theorem list_before_strict (s : SaverState) (config : Option Config)
    (filt : Option Metadata) (before : Config) (lim : Option Int)
    (tup : CheckpointTuple)
    (hmem : tup ∈ listCkpts s config filt (some before) lim)
    (hb : getCheckpointId before ≠ "") :
    strLt (getCheckpointId tup.config) (getCheckpointId before) = true := by
  simp only [listCkpts] at hmem
  rw [if_neg hb] at hmem
  obtain ⟨t, _, ns, cid, e, ht, hbnd⟩ := listThreads_mem s _ _ _ _ _ _ tup hmem
  subst ht
  exact hbnd _ rfl

/-- Witness for C6: with checkpoints `"a"` and `"b"` stored and a before
cursor of `"b"`, the yielded checkpoint `"a"` is strictly below the cursor. -/
theorem list_before_strict_witness :
    strLt
      (getCheckpointId (mkListTuple
        ⟨[("t", [("", [("a", (⟨"a", [], "r"⟩, [], none)),
                       ("b", (⟨"b", [], "r"⟩, [], none))])])], [], []⟩
        "t" "" "a" (⟨"a", [], "r"⟩, [], none)).config)
      (getCheckpointId ⟨"t", some "", some "b", []⟩) = true :=
  list_before_strict
    ⟨[("t", [("", [("a", (⟨"a", [], "r"⟩, [], none)),
                   ("b", (⟨"b", [], "r"⟩, [], none))])])], [], []⟩
    (some ⟨"t", some "", none, []⟩) none ⟨"t", some "", some "b", []⟩ none
    (mkListTuple
      ⟨[("t", [("", [("a", (⟨"a", [], "r"⟩, [], none)),
                     ("b", (⟨"b", [], "r"⟩, [], none))])])], [], []⟩
      "t" "" "a" (⟨"a", [], "r"⟩, [], none))
    (by decide) (by decide)

/-! ### Lemmas: get_tuple congruence and emptiness -/

theorem get_tuple_none_of_empty (s : SaverState) (config : Config)
    (h : storGetNs s config.thread_id ((config.checkpoint_ns).getD "") = []) :
    get_tuple s config = none := by
  simp only [get_tuple]
  by_cases hcid : getCheckpointId config ≠ ""
  · rw [if_pos hcid, h]
    rfl
  · rw [if_neg hcid, if_pos h]

theorem load_blobs_congr (s' s : SaverState) (t ns : String)
    (h : ∀ k v, aget? s'.blobs (t, ns, k, v) = aget? s.blobs (t, ns, k, v)) :
    ∀ vers, load_blobs s' t ns vers = load_blobs s t ns vers := by
  have hgen : ∀ (vers : List (String × String)) (acc : List (String × Value)),
      vers.foldl (fun acc kv =>
        match aget? s'.blobs (t, ns, kv.1, kv.2) with
        | some vv => if vv.1 ≠ "empty" then acc ++ [(kv.1, loadsVal vv)] else acc
        | none => acc) acc
      = vers.foldl (fun acc kv =>
        match aget? s.blobs (t, ns, kv.1, kv.2) with
        | some vv => if vv.1 ≠ "empty" then acc ++ [(kv.1, loadsVal vv)] else acc
        | none => acc) acc := by
    intro vers
    induction vers with
    | nil => intro acc; rfl
    | cons kv rest ih =>
      intro acc
      simp only [List.foldl_cons, h kv.1 kv.2]
      exact ih _
  intro vers
  unfold load_blobs
  exact hgen vers []

theorem get_tuple_congr (s' s : SaverState) (config : Config)
    (h1 : storGetNs s' config.thread_id ((config.checkpoint_ns).getD "")
        = storGetNs s config.thread_id ((config.checkpoint_ns).getD ""))
    (h2 : ∀ cid, wget s' (config.thread_id, (config.checkpoint_ns).getD "", cid)
        = wget s (config.thread_id, (config.checkpoint_ns).getD "", cid))
    (h3 : ∀ vers, load_blobs s' config.thread_id ((config.checkpoint_ns).getD "") vers
        = load_blobs s config.thread_id ((config.checkpoint_ns).getD "") vers) :
    get_tuple s' config = get_tuple s config := by
  simp only [get_tuple, mkListTuple, h1, h2, h3]

/-! ### Lemmas: list congruence on a fixed thread -/

theorem mkListTuple_congr (s' s : SaverState) (t ns : String)
    (hw : ∀ cid, wget s' (t, ns, cid) = wget s (t, ns, cid))
    (hl : ∀ vers, load_blobs s' t ns vers = load_blobs s t ns vers) :
    ∀ cid e, mkListTuple s' t ns cid e = mkListTuple s t ns cid e := by
  intro cid e
  simp only [mkListTuple, hw, hl]

theorem listItems_congr (s' s : SaverState) (t ns : String) (ccid bcid : Option String)
    (filt : Option Metadata)
    (hmk : ∀ cid e, mkListTuple s' t ns cid e = mkListTuple s t ns cid e) :
    ∀ items lim, listItems s' t ns ccid bcid filt items lim
      = listItems s t ns ccid bcid filt items lim := by
  intro items
  induction items with
  | nil => intro lim; rfl
  | cons ce rest ih =>
    intro lim
    obtain ⟨cid0, e0⟩ := ce
    simp only [listItems]
    split
    · exact ih lim
    · split
      · exact ih lim
      · split
        · exact ih lim
        · split
          · rename_i l
            by_cases hl0 : l ≤ 0
            · rw [if_pos hl0, if_pos hl0]
            · rw [if_neg hl0, if_neg hl0, hmk, ih (some (l - 1))]
          · rw [hmk, ih none]

theorem listNss_congr (s' s : SaverState) (t : String) (cns ccid bcid : Option String)
    (filt : Option Metadata)
    (hns : ∀ ns, storGetNs s' t ns = storGetNs s t ns)
    (hmk : ∀ ns cid e, mkListTuple s' t ns cid e = mkListTuple s t ns cid e) :
    ∀ nss lim, listNss s' t cns ccid bcid filt nss lim
      = listNss s t cns ccid bcid filt nss lim := by
  intro nss
  induction nss with
  | nil => intro lim; rfl
  | cons ns0 rest ih =>
    intro lim
    simp only [listNss]
    split
    · exact ih lim
    · rw [hns ns0, listItems_congr s' s t ns0 ccid bcid filt (hmk ns0), ih]

theorem listCkpts_config_congr (s' s : SaverState) (config : Config)
    (filt : Option Metadata) (before : Option Config) (lim : Option Int)
    (hkeys : storGetT s' config.thread_id = storGetT s config.thread_id)
    (hns : ∀ ns, storGetNs s' config.thread_id ns = storGetNs s config.thread_id ns)
    (hmk : ∀ ns cid e, mkListTuple s' config.thread_id ns cid e
      = mkListTuple s config.thread_id ns cid e) :
    listCkpts s' (some config) filt before lim
      = listCkpts s (some config) filt before lim := by
  simp only [listCkpts, listThreads, List.append_nil]
  rw [hkeys, listNss_congr s' s config.thread_id _ _ _ _ hns hmk]

theorem listCkpts_thread_empty (s : SaverState) (config : Config)
    (filt : Option Metadata) (before : Option Config) (lim : Option Int)
    (hkeys : storGetT s config.thread_id = []) :
    listCkpts s (some config) filt before lim = [] := by
  simp only [listCkpts, listThreads, List.append_nil]
  rw [hkeys]
  simp [listNss]

/-! ### Claim C2: thread deletion completeness, frame, and no-op -/

/-- C2: after `delete_thread T` no storage, writes, or blobs entry keyed under
thread `T` remains; entries under every other thread id are unchanged (at the
table level and as observed through both `get_tuple` and `list`); nothing is
observable under `T` afterwards — `get_tuple` for thread `T` returns `none`,
a `list` scoped to thread `T` yields nothing, and a full `list` scan yields
nothing under `T`; and deleting a thread id unknown to all three tables is a
no-op. -/
theorem delete_thread_spec (s : SaverState) (T : String) :
    (∀ p ∈ (delete_thread s T).storage, p.1 ≠ T) ∧
    (∀ p ∈ (delete_thread s T).writes, p.1.1 ≠ T) ∧
    (∀ p ∈ (delete_thread s T).blobs, p.1.1 ≠ T) ∧
    (∀ t, t ≠ T → aget? (delete_thread s T).storage t = aget? s.storage t) ∧
    (∀ k : WKey, k.1 ≠ T → aget? (delete_thread s T).writes k = aget? s.writes k) ∧
    (∀ k : BKey, k.1 ≠ T → aget? (delete_thread s T).blobs k = aget? s.blobs k) ∧
    (∀ config : Config, config.thread_id = T →
      get_tuple (delete_thread s T) config = none) ∧
    (∀ config : Config, config.thread_id ≠ T →
      get_tuple (delete_thread s T) config = get_tuple s config) ∧
    (∀ filt before lim, ∀ tup ∈ listCkpts (delete_thread s T) none filt before lim,
      tup.config.thread_id ≠ T) ∧
    (∀ (config : Config) filt before lim, config.thread_id = T →
      listCkpts (delete_thread s T) (some config) filt before lim = []) ∧
    (∀ (config : Config) filt before lim, config.thread_id ≠ T →
      listCkpts (delete_thread s T) (some config) filt before lim
        = listCkpts s (some config) filt before lim) ∧
    (T ∉ s.storage.map Prod.fst → (∀ k ∈ s.writes.map Prod.fst, k.1 ≠ T) →
      (∀ k ∈ s.blobs.map Prod.fst, k.1 ≠ T) → delete_thread s T = s) := by
  have hsfr : ∀ t, t ≠ T → aget? (delete_thread s T).storage t = aget? s.storage t := by
    intro t ht
    exact aget?_filter_ne s.storage (fun x => decide (x ≠ T)) t (decide_eq_true ht)
  have hwfr : ∀ k : WKey, k.1 ≠ T →
      aget? (delete_thread s T).writes k = aget? s.writes k := by
    intro k hk
    exact aget?_filter_ne s.writes (fun x => decide (x.1 ≠ T)) k (decide_eq_true hk)
  have hbfr : ∀ k : BKey, k.1 ≠ T →
      aget? (delete_thread s T).blobs k = aget? s.blobs k := by
    intro k hk
    exact aget?_filter_ne s.blobs (fun x => decide (x.1 ≠ T)) k (decide_eq_true hk)
  have hTstor : aget? (delete_thread s T).storage T = none := by
    exact aget?_filter_eq_false s.storage (fun x => decide (x ≠ T)) T (by simp)
  have hmkfr : ∀ (t : String), t ≠ T → ∀ ns cid e,
      mkListTuple (delete_thread s T) t ns cid e = mkListTuple s t ns cid e := by
    intro t ht ns cid e
    refine mkListTuple_congr _ _ t ns ?_ ?_ cid e
    · intro cid'
      unfold wget
      rw [hwfr (t, ns, cid') ht]
    · apply load_blobs_congr
      intro k v
      exact hbfr (t, ns, k, v) ht
  refine ⟨?_, ?_, ?_, hsfr, hwfr, hbfr, ?_, ?_, ?_, ?_, ?_, ?_⟩
  · intro p hp
    have := List.of_mem_filter hp
    simpa using this
  · intro p hp
    have := List.of_mem_filter hp
    simpa using this
  · intro p hp
    have := List.of_mem_filter hp
    simpa using this
  · intro config hT
    apply get_tuple_none_of_empty
    unfold storGetNs storGetT
    rw [hT, hTstor]
    rfl
  · intro config hT
    apply get_tuple_congr
    · unfold storGetNs storGetT
      rw [hsfr config.thread_id hT]
    · intro cid
      unfold wget
      rw [hwfr (config.thread_id, (config.checkpoint_ns).getD "", cid) hT]
    · apply load_blobs_congr
      intro k v
      exact hbfr (config.thread_id, (config.checkpoint_ns).getD "", k, v) hT
  · intro filt before lim tup hmem
    simp only [listCkpts] at hmem
    obtain ⟨t, htmem, ns, cid, e, ht, _⟩ := listThreads_mem _ _ _ _ _ _ _ tup hmem
    subst ht
    simp only [List.mem_map] at htmem
    obtain ⟨p, hp, hpt⟩ := htmem
    have := List.of_mem_filter hp
    simp only [decide_eq_true_eq] at this
    simpa [mkListTuple, mkCkptConfig, ← hpt] using this
  · intro config filt before lim hT
    apply listCkpts_thread_empty
    unfold storGetT
    rw [hT, hTstor]
    rfl
  · intro config filt before lim hT
    apply listCkpts_config_congr
    · unfold storGetT
      rw [hsfr config.thread_id hT]
    · intro ns
      unfold storGetNs storGetT
      rw [hsfr config.thread_id hT]
    · exact hmkfr config.thread_id hT
  · intro h1 h2 h3
    unfold delete_thread
    cases s with
    | mk storage writes blobs =>
      simp only [SaverState.mk.injEq]
      refine ⟨?_, ?_, ?_⟩
      · rw [List.filter_eq_self]
        intro p hp
        simp only [decide_eq_true_eq]
        intro heq
        exact h1 (by rw [← heq]; exact List.mem_map_of_mem Prod.fst hp)
      · rw [List.filter_eq_self]
        intro p hp
        exact decide_eq_true (h2 p.1 (List.mem_map_of_mem Prod.fst hp))
      · rw [List.filter_eq_self]
        intro p hp
        exact decide_eq_true (h3 p.1 (List.mem_map_of_mem Prod.fst hp))

/-- Witness for C2 on a store with two threads: purge of the storage table,
`get_tuple` and thread-scoped `list` observe nothing under the deleted
thread, `get_tuple` and `list` for the surviving thread are unchanged, and
deleting a fully unknown thread is the identity. -/
theorem delete_thread_spec_witness :
    (∀ p ∈ (delete_thread
        ⟨[("t1", [("", [("a", (⟨"a", [], "r"⟩, [], none))])]),
          ("t2", [("", [("b", (⟨"b", [], "r"⟩, [], none))])])],
         [(("t1", "", "a"), [(("tk", 0), ("tk", "ch", ("v", "x"), ""))])],
         [(("t1", "", "ch", "1"), ("v", "x"))]⟩ "t1").storage, p.1 ≠ "t1") ∧
    get_tuple (delete_thread
        ⟨[("t1", [("", [("a", (⟨"a", [], "r"⟩, [], none))])]),
          ("t2", [("", [("b", (⟨"b", [], "r"⟩, [], none))])])],
         [(("t1", "", "a"), [(("tk", 0), ("tk", "ch", ("v", "x"), ""))])],
         [(("t1", "", "ch", "1"), ("v", "x"))]⟩ "t1")
      ⟨"t1", some "", none, []⟩ = none ∧
    get_tuple (delete_thread
        ⟨[("t1", [("", [("a", (⟨"a", [], "r"⟩, [], none))])]),
          ("t2", [("", [("b", (⟨"b", [], "r"⟩, [], none))])])],
         [(("t1", "", "a"), [(("tk", 0), ("tk", "ch", ("v", "x"), ""))])],
         [(("t1", "", "ch", "1"), ("v", "x"))]⟩ "t1")
      ⟨"t2", some "", none, []⟩
      = get_tuple
        ⟨[("t1", [("", [("a", (⟨"a", [], "r"⟩, [], none))])]),
          ("t2", [("", [("b", (⟨"b", [], "r"⟩, [], none))])])],
         [(("t1", "", "a"), [(("tk", 0), ("tk", "ch", ("v", "x"), ""))])],
         [(("t1", "", "ch", "1"), ("v", "x"))]⟩
        ⟨"t2", some "", none, []⟩ ∧
    listCkpts (delete_thread
        ⟨[("t1", [("", [("a", (⟨"a", [], "r"⟩, [], none))])]),
          ("t2", [("", [("b", (⟨"b", [], "r"⟩, [], none))])])],
         [(("t1", "", "a"), [(("tk", 0), ("tk", "ch", ("v", "x"), ""))])],
         [(("t1", "", "ch", "1"), ("v", "x"))]⟩ "t1")
      (some ⟨"t1", some "", none, []⟩) none none none = [] ∧
    listCkpts (delete_thread
        ⟨[("t1", [("", [("a", (⟨"a", [], "r"⟩, [], none))])]),
          ("t2", [("", [("b", (⟨"b", [], "r"⟩, [], none))])])],
         [(("t1", "", "a"), [(("tk", 0), ("tk", "ch", ("v", "x"), ""))])],
         [(("t1", "", "ch", "1"), ("v", "x"))]⟩ "t1")
      (some ⟨"t2", some "", none, []⟩) none none none
      = listCkpts
        ⟨[("t1", [("", [("a", (⟨"a", [], "r"⟩, [], none))])]),
          ("t2", [("", [("b", (⟨"b", [], "r"⟩, [], none))])])],
         [(("t1", "", "a"), [(("tk", 0), ("tk", "ch", ("v", "x"), ""))])],
         [(("t1", "", "ch", "1"), ("v", "x"))]⟩
        (some ⟨"t2", some "", none, []⟩) none none none ∧
    delete_thread
        ⟨[("t2", [("", [("b", (⟨"b", [], "r"⟩, [], none))])])], [], []⟩ "t1"
      = ⟨[("t2", [("", [("b", (⟨"b", [], "r"⟩, [], none))])])], [], []⟩ := by
  refine ⟨?_, ?_, ?_, ?_, ?_, ?_⟩
  · exact (delete_thread_spec
      ⟨[("t1", [("", [("a", (⟨"a", [], "r"⟩, [], none))])]),
        ("t2", [("", [("b", (⟨"b", [], "r"⟩, [], none))])])],
       [(("t1", "", "a"), [(("tk", 0), ("tk", "ch", ("v", "x"), ""))])],
       [(("t1", "", "ch", "1"), ("v", "x"))]⟩ "t1").1
  · exact (delete_thread_spec
      ⟨[("t1", [("", [("a", (⟨"a", [], "r"⟩, [], none))])]),
        ("t2", [("", [("b", (⟨"b", [], "r"⟩, [], none))])])],
       [(("t1", "", "a"), [(("tk", 0), ("tk", "ch", ("v", "x"), ""))])],
       [(("t1", "", "ch", "1"), ("v", "x"))]⟩ "t1").2.2.2.2.2.2.1
      ⟨"t1", some "", none, []⟩ rfl
  · exact (delete_thread_spec
      ⟨[("t1", [("", [("a", (⟨"a", [], "r"⟩, [], none))])]),
        ("t2", [("", [("b", (⟨"b", [], "r"⟩, [], none))])])],
       [(("t1", "", "a"), [(("tk", 0), ("tk", "ch", ("v", "x"), ""))])],
       [(("t1", "", "ch", "1"), ("v", "x"))]⟩ "t1").2.2.2.2.2.2.2.1
      ⟨"t2", some "", none, []⟩ (by decide)
  · exact (delete_thread_spec
      ⟨[("t1", [("", [("a", (⟨"a", [], "r"⟩, [], none))])]),
        ("t2", [("", [("b", (⟨"b", [], "r"⟩, [], none))])])],
       [(("t1", "", "a"), [(("tk", 0), ("tk", "ch", ("v", "x"), ""))])],
       [(("t1", "", "ch", "1"), ("v", "x"))]⟩ "t1").2.2.2.2.2.2.2.2.2.1
      ⟨"t1", some "", none, []⟩ none none none rfl
  · exact (delete_thread_spec
      ⟨[("t1", [("", [("a", (⟨"a", [], "r"⟩, [], none))])]),
        ("t2", [("", [("b", (⟨"b", [], "r"⟩, [], none))])])],
       [(("t1", "", "a"), [(("tk", 0), ("tk", "ch", ("v", "x"), ""))])],
       [(("t1", "", "ch", "1"), ("v", "x"))]⟩ "t1").2.2.2.2.2.2.2.2.2.2.1
      ⟨"t2", some "", none, []⟩ none none none (by decide)
  · exact (delete_thread_spec
      ⟨[("t2", [("", [("b", (⟨"b", [], "r"⟩, [], none))])])], [], []⟩ "t1").2.2.2.2.2.2.2.2.2.2.2
      (by decide) (by decide) (by decide)

/-! ### Lemmas: the unfiltered list of one namespace -/

theorem listItems_lim_none (s : SaverState) (t ns : String) (ccid bcid : Option String)
    (filt : Option Metadata) :
    ∀ items, (listItems s t ns ccid bcid filt items none).2 = none := by
  intro items
  induction items with
  | nil => rfl
  | cons ce rest ih =>
    obtain ⟨cid0, e0⟩ := ce
    simp only [listItems]
    split
    · exact ih
    · split
      · exact ih
      · split
        · exact ih
        · exact ih

theorem listItems_all_none (s : SaverState) (t ns : String) :
    ∀ items, (listItems s t ns none none none items none).1
      = items.map (fun ce => mkListTuple s t ns ce.1 ce.2) := by
  intro items
  induction items with
  | nil => rfl
  | cons ce rest ih =>
    obtain ⟨cid0, e0⟩ := ce
    simp only [listItems, List.map_cons]
    rw [ih]
    simp

theorem listNss_single (s : SaverState) (t ns : String) :
    ∀ (nsKeys : List String), nsKeys.Nodup →
      (listNss s t (some ns) none none none nsKeys none).1
        = if ns ∈ nsKeys then
            (listItems s t ns none none none (sortDesc (storGetNs s t ns)) none).1
          else [] := by
  intro nsKeys
  induction nsKeys with
  | nil => intro _; simp [listNss]
  | cons ns0 rest ih =>
    intro hnd
    rw [List.nodup_cons] at hnd
    simp only [listNss]
    by_cases h0 : ns0 = ns
    · subst h0
      rw [if_neg (by simp)]
      rw [listItems_lim_none]
      have hrest : (listNss s t (some ns0) none none none rest none).1 = [] := by
        rw [ih hnd.2, if_neg hnd.1]
      rw [hrest, List.append_nil]
      rw [if_pos (List.mem_cons_self _ _)]
    · rw [if_pos (by simp [bne_iff_ne]; exact fun hh => h0 hh)]
      rw [ih hnd.2]
      by_cases hmem : ns ∈ rest
      · rw [if_pos hmem, if_pos (List.mem_cons_of_mem _ hmem)]
      · rw [if_neg hmem, if_neg (by
          rw [List.mem_cons]
          rintro (hh | hh)
          · exact h0 hh.symm
          · exact hmem hh)]

/-! ### Claim C5: listing order, completeness and determinism -/

/-- C5: `list` restricted to one thread and namespace with no filters yields
exactly the committed checkpoints of that namespace (a permutation of its
stored ids) in strictly descending checkpoint-id order. Determinism holds by
construction: `listCkpts` is a pure function of the store and arguments. -/
theorem list_desc_complete (s : SaverState) (config : Config) (t ns : String)
    (h1 : config.thread_id = t) (h2 : config.checkpoint_ns = some ns)
    (h3 : config.checkpoint_id = none)
    (hnd1 : ((storGetT s t).map Prod.fst).Nodup)
    (hnd2 : ((storGetNs s t ns).map Prod.fst).Nodup) :
    ((listCkpts s (some config) none none none).map
        (fun tup => getCheckpointId tup.config)).Perm
      ((storGetNs s t ns).map Prod.fst) ∧
    ((listCkpts s (some config) none none none).map
        (fun tup => getCheckpointId tup.config)).Pairwise
      (fun a b => strLt b a = true) := by
  have hid : getCheckpointId config = "" := by
    unfold getCheckpointId
    rw [h3]
    rfl
  have hlist : listCkpts s (some config) none none none
      = (listNss s t (some ns) none none none ((storGetT s t).map Prod.fst) none).1 := by
    simp [listCkpts, listThreads, h1, h2, hid]
  rw [hlist, listNss_single s t ns _ hnd1]
  by_cases hmem : ns ∈ (storGetT s t).map Prod.fst
  · rw [if_pos hmem, listItems_all_none]
    rw [List.map_map]
    have hfun : ∀ ce ∈ sortDesc (storGetNs s t ns),
        ((fun tup => getCheckpointId tup.config) ∘
          (fun ce => mkListTuple s t ns ce.1 ce.2)) ce = Prod.fst ce := by
      intro ce _
      rfl
    rw [List.map_congr_left hfun]
    have hperm : ((sortDesc (storGetNs s t ns)).map Prod.fst).Perm
        ((storGetNs s t ns).map Prod.fst) := (sortDesc_perm _).map _
    refine ⟨hperm, ?_⟩
    have hsorted := sortDesc_pairwise (storGetNs s t ns)
    have hnodup : ((sortDesc (storGetNs s t ns)).map Prod.fst).Nodup :=
      hnd2.perm hperm.symm
    have hne : (sortDesc (storGetNs s t ns)).Pairwise (fun a b => a.1 ≠ b.1) := by
      rw [List.Nodup, List.pairwise_map] at hnodup
      exact hnodup
    rw [List.pairwise_map]
    have hand := hsorted.and hne
    refine hand.imp ?_
    intro a b hab
    by_cases hba : strLt b.1 a.1 = true
    · exact hba
    · exact absurd (strLt_connex hab.1 (by simpa using hba)) hab.2
  · have hempty : storGetNs s t ns = [] := by
      unfold storGetNs
      rw [aget?_eq_none_of_not_mem hmem]
      rfl
    rw [if_neg hmem, hempty]
    exact ⟨List.Perm.refl _, List.Pairwise.nil⟩

/-- Witness for C5 on a namespace holding checkpoints `"a"` and `"b"`. -/
theorem list_desc_complete_witness :
    ((listCkpts
        ⟨[("t", [("", [("a", (⟨"a", [], "r"⟩, [], none)),
                       ("b", (⟨"b", [], "r"⟩, [], none))])])], [], []⟩
        (some ⟨"t", some "", none, []⟩) none none none).map
        (fun tup => getCheckpointId tup.config)).Perm
      ((storGetNs
        ⟨[("t", [("", [("a", (⟨"a", [], "r"⟩, [], none)),
                       ("b", (⟨"b", [], "r"⟩, [], none))])])], [], []⟩
        "t" "").map Prod.fst) ∧
    ((listCkpts
        ⟨[("t", [("", [("a", (⟨"a", [], "r"⟩, [], none)),
                       ("b", (⟨"b", [], "r"⟩, [], none))])])], [], []⟩
        (some ⟨"t", some "", none, []⟩) none none none).map
        (fun tup => getCheckpointId tup.config)).Pairwise
      (fun a b => strLt b a = true) :=
  list_desc_complete
    ⟨[("t", [("", [("a", (⟨"a", [], "r"⟩, [], none)),
                   ("b", (⟨"b", [], "r"⟩, [], none))])])], [], []⟩
    ⟨"t", some "", none, []⟩ "t" "" rfl rfl rfl (by decide) (by decide)
